import Mathlib

/-!
# Verification of the blueprint decode-and-extract core

This development gives a shallow embedding of `app/services/blueprint_parser.py`
(class `BlueprintParser`) and proves properties of the decode pipeline
(`decode`) and the metadata extraction (`extract_metadata`,
`_calculate_dimensions`, `_decode_version`).

Modelling conventions:
* A decoded document is the dynamically-shaped `Json` tree.  Numbers are
  modelled as rationals (`ℚ`): every Python `int` and every Python `float`
  reachable from `json.loads` denotes a rational, and all arithmetic the
  program performs on them (`-`, `min`, `max`, `int(...)`) is exact on the
  values involved.  The `int`/`float` type distinction is not carried; where
  the program's behaviour depends on it (only the `>>` in
  `_decode_version`) the model treats integer-valued numbers as `int`s.
* Python runtime exceptions that the program can actually raise are the
  `PyExc` constructors; `PyExc.schemaError` is the `BlueprintParseError`
  raised by `extract_metadata` itself (the spec's `SchemaError`), all other
  constructors are built-in Python exceptions that escape the function
  undeclared.
* Rational arithmetic is performed through `mkRat`-based helpers
  (`qSub`, `qAdd`, `qMul`) so that every definition evaluates inside the
  kernel; they are proved equal to the field operations of `ℚ`.
* Strings are Unicode scalar sequences (Lean `String`/`Char`), matching the
  strings `json.loads` produces for well-formed documents.
-/

/-- `mkRat`-based subtraction on `ℚ`; computes exactly `a - b`. -/
def qSub (a b : ℚ) : ℚ := mkRat (a.num * b.den - b.num * a.den) (a.den * b.den)

/-- `mkRat`-based addition on `ℚ`; computes exactly `a + b`. -/
def qAdd (a b : ℚ) : ℚ := mkRat (a.num * b.den + b.num * a.den) (a.den * b.den)

/-- `mkRat`-based multiplication on `ℚ`; computes exactly `a * b`. -/
def qMul (a b : ℚ) : ℚ := mkRat (a.num * b.num) (a.den * b.den)

/-- Truncation toward zero, the semantics of Python `int()` applied to a
numeric value. -/
def ratTrunc (q : ℚ) : Int := q.num.tdiv q.den

/-- A decoded document: the dynamically-shaped tree produced by
`json.loads` (object / array / string / number / boolean / null).
Objects are insertion-ordered key-value lists, as Python dicts are; objects
produced by the modelled `json.loads` never contain duplicate keys. -/
inductive Json where
  | null
  | bool (b : Bool)
  | num (q : ℚ)
  | str (s : String)
  | arr (elems : List Json)
  | obj (entries : List (String × Json))
deriving Inhabited

/-- Python exceptions arising in `extract_metadata` and its helpers.
`schemaError` is the `BlueprintParseError("Invalid blueprint data: missing
'blueprint' or 'blueprint_book' key")` the function raises itself; the
remaining constructors are built-in exceptions (`TypeError`,
`AttributeError`, `ValueError`, `KeyError`) that propagate out of the
function undeclared. -/
inductive PyExc where
  | schemaError
  | typeError
  | attributeError
  | valueError
  | keyError
deriving DecidableEq, Inhabited

mutual

/-- Python `==` on document values: `None == None`; booleans compare equal
to the numbers `0`/`1` (Python `bool` is a subtype of `int`); numbers
compare by value; strings by content; lists pointwise; dicts as unordered
key-value maps. Values of different kinds (other than `bool`/number) are
unequal. -/
def pyEq : Json → Json → Bool
  | .null, .null => true
  | .bool a, .bool b => a == b
  | .bool a, .num q => (if a then (1 : ℚ) else 0) == q
  | .num q, .bool a => (if a then (1 : ℚ) else 0) == q
  | .num a, .num b => a == b
  | .str a, .str b => a == b
  | .arr a, .arr b => pyEqList a b
  | .obj a, .obj b => a.length == b.length && pyEqObjAll a b
  | _, _ => false

def pyEqList : List Json → List Json → Bool
  | [], [] => true
  | x :: xs, y :: ys => pyEq x y && pyEqList xs ys
  | _, _ => false

def pyEqObjAll : List (String × Json) → List (String × Json) → Bool
  | [], _ => true
  | (k, v) :: rest, b =>
    (match b.lookup k with
     | some w => pyEq v w
     | none => false) && pyEqObjAll rest b

end

/-- Python truthiness of a document value (`if not entities: ...`). -/
def pyTruthy : Json → Bool
  | .null => false
  | .bool b => b
  | .num q => q != 0
  | .str s => s != ""
  | .arr l => !l.isEmpty
  | .obj l => !l.isEmpty

/-- Python `item in container` for the containers a document can hold:
key membership for dicts, element membership (via `==`) for lists,
substring test for strings; other values are not iterable (`TypeError`). -/
def pyContains (container : Json) (item : Json) : Except PyExc Bool :=
  match container with
  | .obj kvs => .ok (kvs.any (fun kv => pyEq (.str kv.1) item))
  | .arr l => .ok (l.any (fun x => pyEq x item))
  | .str s =>
    match item with
    | .str t => .ok (decide (t.data <:+: s.data))
    | _ => .error .typeError
  | _ => .error .typeError

/-- Python subscript `container[key]` with a string key: dict lookup
(`KeyError` when absent); list and string indices must be integers
(`TypeError`); other values are not subscriptable (`TypeError`). -/
def pySubscript (container : Json) (key : String) : Except PyExc Json :=
  match container with
  | .obj kvs =>
    match kvs.lookup key with
    | some v => .ok v
    | none => .error .keyError
  | _ => .error .typeError

/-- Python `container.get(key, default)`: only dicts have `.get`
(`AttributeError` otherwise). -/
def pyGet (container : Json) (key : String) (default : Json) : Except PyExc Json :=
  match container with
  | .obj kvs => .ok ((kvs.lookup key).getD default)
  | _ => .error .attributeError

/-- Python iteration `for x in v`: lists yield elements, strings yield
one-character strings, dicts yield their keys; other values raise
`TypeError`. -/
def pyIter : Json → Except PyExc (List Json)
  | .arr l => .ok l
  | .str s => .ok (s.data.map (fun c => .str (String.singleton c)))
  | .obj kvs => .ok (kvs.map (fun kv => .str kv.1))
  | _ => .error .typeError

/-- Python `len(v)` for sized document values. -/
def pyLen : Json → Except PyExc Nat
  | .arr l => .ok l.length
  | .str s => .ok s.length
  | .obj kvs => .ok kvs.length
  | _ => .error .typeError

mutual

/-- Python `a < b` on document values: numeric comparison (booleans coerce
to `0`/`1`), lexicographic comparison for strings and lists; all other
combinations raise `TypeError`. -/
def pyLtB : Json → Json → Except PyExc Bool
  | .num a, .num b => .ok (decide (a < b))
  | .num a, .bool b => .ok (decide (a < (if b then (1 : ℚ) else 0)))
  | .bool a, .num b => .ok (decide ((if a then (1 : ℚ) else 0) < b))
  | .bool a, .bool b => .ok (decide ((if a then (1 : ℚ) else 0) < (if b then 1 else 0)))
  | .str a, .str b => .ok (decide (a < b))
  | .arr a, .arr b => pyLtList a b
  | _, _ => .error .typeError

def pyLtList : List Json → List Json → Except PyExc Bool
  | [], [] => .ok false
  | [], _ :: _ => .ok true
  | _ :: _, [] => .ok false
  | x :: xs, y :: ys =>
    if pyEq x y then pyLtList xs ys else pyLtB x y

end

/-- Python `min(l)` on a list: start from the first element, replace the
current minimum whenever a later element compares `<` to it
(`ValueError` on an empty list). -/
def pyMin (l : List Json) : Except PyExc Json :=
  match l with
  | [] => .error .valueError
  | x :: xs =>
    xs.foldlM (fun cur y => do
      let b ← pyLtB y cur
      pure (if b then y else cur)) x

/-- Python `max(l)` on a list: replace the current maximum whenever a later
element compares `>` to it, i.e. the current maximum is `<` it. -/
def pyMax (l : List Json) : Except PyExc Json :=
  match l with
  | [] => .error .valueError
  | x :: xs =>
    xs.foldlM (fun cur y => do
      let b ← pyLtB cur y
      pure (if b then y else cur)) x

/-- The numeric value of a document value under Python arithmetic
coercion: numbers are themselves, booleans are `0`/`1`. -/
def jnum? : Json → Option ℚ
  | .num q => some q
  | .bool b => some (if b then 1 else 0)
  | _ => none

/-- Python `a - b` on document values: defined for numbers and booleans,
`TypeError` otherwise. -/
def pySub (a b : Json) : Except PyExc Json :=
  match jnum? a, jnum? b with
  | some x, some y => .ok (.num (qSub x y))
  | _, _ => .error .typeError

/-- Python `int(v)`: truncation toward zero for numbers, `0`/`1` for
booleans. In this program `int()` is only ever applied to the result of a
numeric subtraction, so the string case (which Python handles by parsing
digits, raising `ValueError` for non-numeric text) never receives a
parseable value; it is modelled as `ValueError` without the digit parsing.
`None` and containers raise `TypeError`. -/
def pyToInt : Json → Except PyExc Int
  | .num q => .ok (ratTrunc q)
  | .bool b => .ok (if b then 1 else 0)
  | .str _ => .error .valueError
  | _ => .error .typeError

namespace BlueprintParser

/-- The version triple returned by `_decode_version` (Python dict with
keys `major`, `minor`, `patch`). -/
structure VersionParts where
  major : Int
  minor : Int
  patch : Int
deriving DecidableEq

/-- Python `v >> k` on an (unbounded) integer: arithmetic shift, i.e.
floor division by `2 ^ k`. -/
def pyShr (v : Int) (k : Nat) : Int := Int.ediv v (2 ^ k)

/-- Python `v & 0xFFFF` on an (unbounded) integer: the low 16 bits in
two's-complement semantics, i.e. the non-negative remainder mod `2 ^ 16`. -/
def pyAnd16 (v : Int) : Int := Int.emod v 65536

/-- `BlueprintParser._decode_version` on an integer argument:
`0` yields all zeros, otherwise three 16-bit fields are extracted by
shifting and masking; the lowest 16 bits are discarded. -/
def decode_version (version_int : Int) : VersionParts :=
  if version_int = 0 then ⟨0, 0, 0⟩
  else
    ⟨pyAnd16 (pyShr version_int 48),
     pyAnd16 (pyShr version_int 32),
     pyAnd16 (pyShr version_int 16)⟩

/-- The call `BlueprintParser._decode_version(version_int)` as it happens
inside `extract_metadata`, where `version_int = bp.get("version", 0)` is a
dynamically-typed document value.  `version_int == 0` is Python `==`
(so `0`, `0.0` and `False` all take the zero branch); the shift `v >> 48`
requires an integer (`TypeError` otherwise).  A `float` with integral
value would also raise `TypeError` in Python; the rational model cannot
distinguish it from an `int` and treats it as an `int`. -/
def decode_version_value (version_int : Json) : Except PyExc VersionParts :=
  if pyEq version_int (.num 0) then .ok ⟨0, 0, 0⟩
  else
    match version_int with
    | .num q => if q.den = 1 then .ok (decode_version q.num) else .error .typeError
    | .bool b => .ok (decode_version (if b then 1 else 0))
    | _ => .error .typeError

/-- The dict `{"width": ..., "height": ...}` returned by
`_calculate_dimensions` (both values are Python ints). -/
structure Dimensions where
  width : Int
  height : Int
deriving DecidableEq

/-- The comprehension `[p.get(c, 0) for p in positions if c in p]` for a
coordinate key `c`, evaluated left to right. -/
def collectCoord (key : String) : List Json → Except PyExc (List Json)
  | [] => .ok []
  | p :: ps => do
    let b ← pyContains p (.str key)
    if b then
      let v ← pyGet p key (.num 0)
      let rest ← collectCoord key ps
      pure (v :: rest)
    else
      collectCoord key ps

/-- The comprehension `[e.get("position", {}) for e in entities]`,
evaluated left to right. -/
def mapPositions : List Json → Except PyExc (List Json)
  | [] => .ok []
  | e :: es => do
    let p ← pyGet e "position" (.obj [])
    let rest ← mapPositions es
    pure (p :: rest)

/-- `BlueprintParser._calculate_dimensions(entities)`:
empty (falsy) input yields zero dimensions; positions are gathered with
`e.get("position", {})`; the `x` and `y` coordinates are collected
independently from positions containing the respective key; if either list
is empty both dimensions are `0`; otherwise
`width = int(max_x - min_x) + 1` and `height = int(max_y - min_y) + 1`. -/
def calculate_dimensions (entities : Json) : Except PyExc Dimensions :=
  if pyTruthy entities = false then .ok ⟨0, 0⟩
  else do
    let ents ← pyIter entities
    let positions ← mapPositions ents
    let xs ← collectCoord "x" positions
    let ys ← collectCoord "y" positions
    if xs.isEmpty || ys.isEmpty then pure ⟨0, 0⟩
    else do
      let min_x ← pyMin xs
      let max_x ← pyMax xs
      let min_y ← pyMin ys
      let max_y ← pyMax ys
      let dx ← pySub max_x min_x
      let w ← pyToInt dx
      let dy ← pySub max_y min_y
      let h ← pyToInt dy
      pure ⟨w + 1, h + 1⟩

/-- A Python value is hashable (usable as a dict key) unless it is a list
or a dict. -/
def isHashable : Json → Bool
  | .arr _ => false
  | .obj _ => false
  | _ => true

/-- `entity_counts.get(entity_name, 0)`: dict lookup by `==`, default 0. -/
def histLookup (h : List (Json × Nat)) (k : Json) : Nat :=
  match h.find? (fun kv => pyEq kv.1 k) with
  | some kv => kv.2
  | none => 0

/-- `entity_counts[entity_name] = v`: replace the value at the first
`==`-equal key (Python dicts keep the originally inserted key object and
its position), or append a new entry. -/
def histSet (h : List (Json × Nat)) (k : Json) (v : Nat) : List (Json × Nat) :=
  match h with
  | [] => [(k, v)]
  | kv :: rest =>
    if pyEq kv.1 k then (kv.1, v) :: rest else kv :: histSet rest k v

/-- The entity-histogram loop of `extract_metadata`:
`for entity in entities: name = entity.get("name", "unknown");
entity_counts[name] = entity_counts.get(name, 0) + 1`.
Storing under an unhashable key raises `TypeError`. -/
def buildHistogram (acc : List (Json × Nat)) : List Json → Except PyExc (List (Json × Nat))
  | [] => .ok acc
  | e :: rest => do
    let name ← pyGet e "name" (.str "unknown")
    if isHashable name then
      buildHistogram (histSet acc name (histLookup acc name + 1)) rest
    else
      .error .typeError

/-- The book-variant metadata record returned by `extract_metadata`
(`type` is the constant `"blueprint_book"`). -/
structure BookMeta where
  name : Json
  description : Json
  blueprint_count : Nat

/-- The single-blueprint metadata record returned by `extract_metadata`
(`type` is the constant `"blueprint"`). -/
structure SingleMeta where
  name : Json
  description : Json
  entity_count : Nat
  entity_counts : List (Json × Nat)
  width : Int
  height : Int
  version_major : Int
  version_minor : Int
  version_patch : Int

/-- The tagged result of `extract_metadata`. -/
inductive Metadata where
  | book (b : BookMeta)
  | single (s : SingleMeta)

/-- The single-blueprint path of `extract_metadata`, taken when
`"blueprint" in blueprint_data`: read `label`, `description`, `entities`
with lenient defaults, count entities by name, compute dimensions, decode
the version, and report `entity_count = len(entities)`. -/
def extract_single (blueprint_data : Json) : Except PyExc Metadata := do
  let bp ← pySubscript blueprint_data "blueprint"
  let name ← pyGet bp "label" (.str "Untitled Blueprint")
  let description ← pyGet bp "description" (.str "")
  let entities ← pyGet bp "entities" (.arr [])
  let ents ← pyIter entities
  let entity_counts ← buildHistogram [] ents
  let dims ← calculate_dimensions entities
  let version_int ← pyGet bp "version" (.num 0)
  let version ← decode_version_value version_int
  let n ← pyLen entities
  pure (.single
    { name := name
      description := description
      entity_count := n
      entity_counts := entity_counts
      width := dims.width
      height := dims.height
      version_major := version.major
      version_minor := version.minor
      version_patch := version.patch })

/-- The book path of `extract_metadata`, taken when only
`"blueprint_book" in blueprint_data`: book-level metadata only, no
recursion into the nested blueprints. -/
def extract_book (blueprint_data : Json) : Except PyExc Metadata := do
  let book ← pySubscript blueprint_data "blueprint_book"
  let name ← pyGet book "label" (.str "Untitled Blueprint Book")
  let description ← pyGet book "description" (.str "")
  let bps ← pyGet book "blueprints" (.arr [])
  let n ← pyLen bps
  pure (.book { name := name, description := description, blueprint_count := n })

/-- `BlueprintParser.extract_metadata(blueprint_data)`:
if `"blueprint" in blueprint_data` take the single-blueprint path; else if
`"blueprint_book" in blueprint_data` return book-level metadata; else raise
`BlueprintParseError` (the schema error). -/
def extract_metadata (blueprint_data : Json) : Except PyExc Metadata := do
  let hasBp ← pyContains blueprint_data (.str "blueprint")
  if hasBp then
    extract_single blueprint_data
  else do
    let hasBook ← pyContains blueprint_data (.str "blueprint_book")
    if hasBook then
      extract_book blueprint_data
    else
      .error .schemaError

end BlueprintParser

/-- Whether an entity has a `position` object containing both coordinate
keys (`"x" in p and "y" in p`); the reading of claim C7. -/
def hasBothCoords (e : Json) : Bool :=
  match pyGet e "position" (.obj []) with
  | .ok p =>
    ((pyContains p (.str "x")).toOption.getD false)
      && ((pyContains p (.str "y")).toOption.getD false)
  | .error _ => false

/-- A test entity at integer coordinates. -/
def entityAt (x y : ℤ) : Json :=
  .obj [("position", .obj [("x", .num (mkRat x 1)), ("y", .num (mkRat y 1))])]

/-- A test entity at rational coordinates. -/
def entityAtQ (x y : ℚ) : Json :=
  .obj [("position", .obj [("x", .num x), ("y", .num y)])]

/-- A test entity whose position carries only an `x` coordinate. -/
def xOnlyEntity : Json := .obj [("position", .obj [("x", .num (mkRat 5 1))])]

/-- A test entity whose position carries only a `y` coordinate. -/
def yOnlyEntity : Json := .obj [("position", .obj [("y", .num (mkRat 7 1))])]

/-- The Python hash-key view of a hashable document value: `None` is its
own key; booleans and numbers collapse to their numeric value (Python
`True == 1`, `False == 0`, `1 == 1.0`); strings are keyed by content.
Lists and dicts are unhashable (`none`). -/
inductive HKey where
  | nullKey
  | numKey (q : ℚ)
  | strKey (s : String)
deriving DecidableEq

/-- The hash key of a document value, when hashable. -/
def hkey? : Json → Option HKey
  | .null => some .nullKey
  | .bool b => some (.numKey (if b then 1 else 0))
  | .num q => some (.numKey q)
  | .str s => some (.strKey s)
  | .arr _ => none
  | .obj _ => none

/-- The names read by the histogram loop, in order:
`entity.get("name", "unknown")` for each entity. -/
def mapNames : List Json → Except PyExc (List Json)
  | [] => .ok []
  | e :: es => do
    let n ← pyGet e "name" (.str "unknown")
    let rest ← mapNames es
    pure (n :: rest)

/-- Well-formedness of the histogram dict: keys hashable and pairwise
distinct under Python `==` (true of every Python dict). -/
def HistWF (h : List (Json × Nat)) : Prop :=
  h.Pairwise (fun p q => pyEq p.1 q.1 = false) ∧ ∀ kv ∈ h, (hkey? kv.1).isSome

/-- A result that is not the schema error (`BlueprintParseError`) raised
by `extract_metadata` for a document with neither top-level key. -/
def NoSchema {α : Type} (r : Except PyExc α) : Prop := r ≠ .error .schemaError

/-- Values accepted by Python `len()`. -/
def sizedValue : Json → Bool
  | .arr _ => true
  | .str _ => true
  | .obj _ => true
  | _ => false

/-- Key presence in a document object, as the classification step tests it
(`"k" in doc`). -/
def hasKey (kvs : List (String × Json)) (k : String) : Bool :=
  kvs.any (fun kv => kv.1 == k)

/-- Shape condition under which the book path returns a record: the
`blueprint_book` value is a dict whose `blueprints` field, when present,
supports `len()`. -/
def bookShaped (kvs : List (String × Json)) : Bool :=
  match kvs.lookup "blueprint_book" with
  | some (.obj bkvs) =>
    match bkvs.lookup "blueprints" with
    | none => true
    | some v => sizedValue v
  | _ => false

/-! ### Wire format: base64, zlib (stored blocks), UTF-8, JSON text -/

/-- The standard base64 alphabet character for a 6-bit value. -/
def b64AlphaChar (n : Nat) : Char :=
  if n < 26 then Char.ofNat (65 + n)
  else if n < 52 then Char.ofNat (97 + (n - 26))
  else if n < 62 then Char.ofNat (48 + (n - 52))
  else if n = 62 then '+'
  else '/'

/-- The 6-bit value of a base64 alphabet character, `none` otherwise. -/
def b64CharVal (c : Char) : Option Nat :=
  if 65 ≤ c.toNat ∧ c.toNat ≤ 90 then some (c.toNat - 65)
  else if 97 ≤ c.toNat ∧ c.toNat ≤ 122 then some (c.toNat - 97 + 26)
  else if 48 ≤ c.toNat ∧ c.toNat ≤ 57 then some (c.toNat - 48 + 52)
  else if c = '+' then some 62
  else if c = '/' then some 63
  else none

/-- `base64.b64encode`: three bytes become four alphabet characters; a
final group of one or two bytes is padded with `=`. -/
def b64encode : List Nat → List Char
  | [] => []
  | [a] => [b64AlphaChar (a / 4), b64AlphaChar (a % 4 * 16), '=', '=']
  | [a, b] =>
    [b64AlphaChar (a / 4), b64AlphaChar (a % 4 * 16 + b / 16),
     b64AlphaChar (b % 16 * 4), '=']
  | a :: b :: c :: rest =>
    b64AlphaChar (a / 4) :: b64AlphaChar (a % 4 * 16 + b / 16) ::
    b64AlphaChar (b % 16 * 4 + c / 64) :: b64AlphaChar (c % 64) :: b64encode rest

/-- CPython `binascii.a2b_base64` in non-strict mode (what
`base64.b64decode(s)` calls): characters outside the alphabet are
discarded; a `=` when two or three data characters of the current group
have been seen (completing the group together with the preceding pads)
emits the partial group and stops, ignoring the remainder; otherwise `=`
just counts as padding seen.  At the end, a non-empty partial group is an
error (`Incorrect padding` / `number of data characters cannot be 1 more
than a multiple of 4`).  State: current group position, accumulated bits,
pads seen since the last data character. -/
def a2b : List Char → Nat → Nat → Nat → Except Unit (List Nat)
  | [], quadPos, _, _ => if quadPos = 0 then .ok [] else .error ()
  | c :: rest, quadPos, leftchar, pads =>
    if c = '=' then
      if 2 ≤ quadPos ∧ quadPos + pads + 1 = 4 then
        if quadPos = 2 then .ok [leftchar / 16]
        else .ok [leftchar / 1024, leftchar / 4 % 256]
      else a2b rest quadPos leftchar (pads + 1)
    else
      match b64CharVal c with
      | none => a2b rest quadPos leftchar pads
      | some d =>
        let lc := leftchar * 64 + d
        if quadPos = 3 then
          match a2b rest 0 0 0 with
          | .error e => .error e
          | .ok restBytes =>
            .ok (lc / 65536 :: lc / 256 % 256 :: lc % 256 :: restBytes)
        else a2b rest (quadPos + 1) lc 0

/-- The adler32 checksum (two running sums mod 65521). -/
def adlerStep (p : Nat × Nat) (x : Nat) : Nat × Nat :=
  ((p.1 + x) % 65521, (p.2 + (p.1 + x) % 65521) % 65521)

def adler32 (bs : List Nat) : Nat :=
  let p := bs.foldl adlerStep (1, 0)
  p.2 * 65536 + p.1

/-- The DEFLATE "stored" (uncompressed, `BTYPE = 00`) block encoding of a
byte string: each block is at most 65535 bytes, prefixed by a header byte
(`BFINAL` in the lowest bit), `LEN` little-endian and its one's
complement `NLEN`.  Fuel-driven for kernel computability; one unit of
fuel per block always suffices for `fuel > length`. -/
def storedBlocks : Nat → List Nat → List Nat
  | 0, _ => []
  | fuel + 1, bs =>
    if bs.length ≤ 65535 then
      1 :: bs.length % 256 :: bs.length / 256 ::
        (65535 - bs.length) % 256 :: (65535 - bs.length) / 256 :: bs
    else
      0 :: 255 :: 255 :: 0 :: 0 ::
        (bs.take 65535 ++ storedBlocks fuel (bs.drop 65535))

/-- A model of `zlib.compress`: zlib header `0x78 0x01`, the payload in
stored DEFLATE blocks, and the big-endian adler32 trailer.  The real
library emits Huffman-coded blocks; stored blocks are an equally valid
zlib stream for the same payload, and `zlib.decompress` inverts both. -/
def zlibCompress (bs : List Nat) : List Nat :=
  let ad := adler32 bs
  120 :: 1 :: (storedBlocks (bs.length + 1) bs ++
    [ad / 16777216, ad / 65536 % 256, ad / 256 % 256, ad % 256])

/-- Inflate a sequence of stored DEFLATE blocks, returning the payload and
the bytes following the final block.  Huffman block types (`BTYPE` 1/2)
are outside this model (the modelled `zlib.compress` never emits them). -/
def inflateBlocks : Nat → List Nat → Except Unit (List Nat × List Nat)
  | 0, _ => .error ()
  | fuel + 1, bs =>
    match bs with
    | [] => .error ()
    | hdr :: rest =>
      if hdr / 2 % 4 = 0 then
        match rest with
        | lo :: hi :: nlo :: nhi :: rest2 =>
          let len := lo + 256 * hi
          if nlo + 256 * nhi = 65535 - len then
            if rest2.length < len then .error ()
            else if hdr % 2 = 1 then .ok (rest2.take len, rest2.drop len)
            else
              match inflateBlocks fuel (rest2.drop len) with
              | .error e => .error e
              | .ok (p2, rem2) => .ok (rest2.take len ++ p2, rem2)
          else .error ()
        | _ => .error ()
      else .error ()

/-- A model of `zlib.decompress` for stored-block streams: check the zlib
header (`CM = 8`, `CINFO ≤ 7`, header checksum divisible by 31, no preset
dictionary), inflate, verify the adler32 trailer.  Bytes after the
trailer are ignored, as `zlib.decompress` ignores them. -/
def zlibDecompress (bs : List Nat) : Except Unit (List Nat) :=
  match bs with
  | cmf :: flg :: rest =>
    if cmf % 16 = 8 ∧ cmf / 16 ≤ 7 ∧ (cmf * 256 + flg) % 31 = 0 ∧ flg / 32 % 2 = 0 then
      match inflateBlocks (rest.length + 1) rest with
      | .error e => .error e
      | .ok (payload, rem) =>
        match rem with
        | a :: b :: c :: d :: _ =>
          if a * 16777216 + b * 65536 + c * 256 + d = adler32 payload then
            .ok payload
          else .error ()
        | _ => .error ()
    else .error ()
  | _ => .error ()

/-- UTF-8 encoding of one scalar value. -/
def utf8EncodeChar (c : Char) : List Nat :=
  let v := c.toNat
  if v < 128 then [v]
  else if v < 2048 then [192 + v / 64, 128 + v % 64]
  else if v < 65536 then [224 + v / 4096, 128 + v / 64 % 64, 128 + v % 64]
  else [240 + v / 262144, 128 + v / 4096 % 64, 128 + v / 64 % 64, 128 + v % 64]

def utf8Encode : List Char → List Nat
  | [] => []
  | c :: cs => utf8EncodeChar c ++ utf8Encode cs

/-- Whether a byte is a UTF-8 continuation byte (`10xxxxxx`). -/
def isCont (b : Nat) : Bool := 128 ≤ b && b < 192

/-- UTF-8 decoding (as `bytes.decode("utf-8")` inside `json.loads`):
rejects invalid sequences, overlong encodings, surrogates and
out-of-range values.  Fuel-driven; `fuel > length` always suffices. -/
def utf8Decode : Nat → List Nat → Option (List Char)
  | 0, _ => none
  | _, [] => some []
  | fuel + 1, b :: rest =>
    if b < 128 then (utf8Decode fuel rest).map (Char.ofNat b :: ·)
    else if 194 ≤ b ∧ b < 224 then
      match rest with
      | c1 :: rest1 =>
        if isCont c1 then
          (utf8Decode fuel rest1).map (Char.ofNat ((b - 192) * 64 + (c1 - 128)) :: ·)
        else none
      | _ => none
    else if 224 ≤ b ∧ b < 240 then
      match rest with
      | c1 :: c2 :: rest2 =>
        if isCont c1 && isCont c2 then
          let v := (b - 224) * 4096 + (c1 - 128) * 64 + (c2 - 128)
          if 2048 ≤ v ∧ ¬ (55296 ≤ v ∧ v < 57344) then
            (utf8Decode fuel rest2).map (Char.ofNat v :: ·)
          else none
        else none
      | _ => none
    else if 240 ≤ b ∧ b < 245 then
      match rest with
      | c1 :: c2 :: c3 :: rest3 =>
        if isCont c1 && isCont c2 && isCont c3 then
          let v := (b - 240) * 262144 + (c1 - 128) * 4096 + (c2 - 128) * 64 + (c3 - 128)
          if 65536 ≤ v ∧ v ≤ 1114111 then
            (utf8Decode fuel rest3).map (Char.ofNat v :: ·)
          else none
        else none
      | _ => none
    else none

/-- Lowercase hex digit. -/
def hexDigitCh (d : Nat) : Char :=
  if d < 10 then Char.ofNat (48 + d) else Char.ofNat (97 + (d - 10))

/-- Four lowercase hex digits of a value below `0x10000`. -/
def hex4 (n : Nat) : List Char :=
  [hexDigitCh (n / 4096 % 16), hexDigitCh (n / 256 % 16),
   hexDigitCh (n / 16 % 16), hexDigitCh (n % 16)]

/-- `json.dumps` escaping of one character with the default
`ensure_ascii=True`: printable ASCII passes through, the short escapes
are used for the usual controls, everything else becomes `\uXXXX`
(a surrogate pair for astral characters). -/
def escapeChar (c : Char) : List Char :=
  if c = '"' then ['\\', '"']
  else if c = '\\' then ['\\', '\\']
  else if c = '\n' then ['\\', 'n']
  else if c = '\r' then ['\\', 'r']
  else if c = '\t' then ['\\', 't']
  else if c.toNat = 8 then ['\\', 'b']
  else if c.toNat = 12 then ['\\', 'f']
  else if 32 ≤ c.toNat ∧ c.toNat ≤ 126 then [c]
  else if c.toNat < 65536 then '\\' :: 'u' :: hex4 c.toNat
  else
    '\\' :: 'u' :: hex4 (55296 + (c.toNat - 65536) / 1024) ++
      ('\\' :: 'u' :: hex4 (56320 + (c.toNat - 65536) % 1024))

def escapeList : List Char → List Char
  | [] => []
  | c :: cs => escapeChar c ++ escapeList cs

/-- A JSON string literal for `s`. -/
def dumpString (s : String) : List Char := '"' :: escapeList s.data ++ ['"']

/-- Decimal digits of `n`, most significant first (fuel-driven;
`fuel > n` suffices). -/
def natToCharsAux : Nat → Nat → List Char → List Char
  | 0, _, acc => acc
  | fuel + 1, n, acc =>
    if n < 10 then Char.ofNat (48 + n % 10) :: acc
    else natToCharsAux fuel (n / 10) (Char.ofNat (48 + n % 10) :: acc)

def natToChars (n : Nat) : List Char := natToCharsAux (n + 1) n []

def intToChars (i : Int) : List Char :=
  if i < 0 then '-' :: natToChars i.natAbs else natToChars i.natAbs

/-- Exactly `width` decimal digits of `m` (leading zeros kept). -/
def natPadChars : Nat → Nat → List Char
  | 0, _ => []
  | w + 1, m => natPadChars w (m / 10) ++ [Char.ofNat (48 + m % 10)]

/-- The smallest `k` with `den ∣ 10 ^ k`, when one exists (fuel-driven
search; any denominator dividing some power of ten satisfies
`k < den + 1`). -/
def decExpAux : Nat → Nat → Nat → Option Nat
  | 0, _, _ => none
  | fuel + 1, d, k => if 10 ^ k % d = 0 then some k else decExpAux fuel d (k + 1)

def decExp (d : Nat) : Option Nat := decExpAux (d + 1) d 0

/-- `json.dumps` of a number: integers print their decimal digits; a
value with denominator dividing `10 ^ k` prints as an exact decimal with
`k` fractional digits.  (CPython prints the shortest decimal that parses
back to the same float; both choices satisfy `loads(dumps(x)) = x`.  A
denominator dividing no power of ten cannot arise from a parsed document;
that branch truncates.) -/
def dumpNum (q : ℚ) : List Char :=
  match decExp q.den with
  | some 0 => intToChars q.num
  | some (k + 1) =>
    let m := (q.num * ((10 ^ (k + 1) : Nat) / q.den : Nat)).natAbs
    (if q.num < 0 then ['-'] else []) ++
      natToChars (m / 10 ^ (k + 1)) ++ '.' :: natPadChars (k + 1) (m % 10 ^ (k + 1))
  | none => intToChars (q.num.tdiv q.den)

mutual

/-- `json.dumps` with the default separators `", "` and `": "` and
`ensure_ascii=True`. -/
def dumps : Json → List Char
  | .null => ['n', 'u', 'l', 'l']
  | .bool b => if b then ['t', 'r', 'u', 'e'] else ['f', 'a', 'l', 's', 'e']
  | .num q => dumpNum q
  | .str s => dumpString s
  | .arr [] => ['[', ']']
  | .arr (x :: xs) => '[' :: (dumps x ++ dumpsArrRest xs ++ [']'])
  | .obj [] => ['{', '}']
  | .obj (kv :: kvs) => '{' :: (dumpEntry kv ++ dumpsObjRest kvs ++ ['}'])

def dumpsArrRest : List Json → List Char
  | [] => []
  | x :: xs => ',' :: ' ' :: (dumps x ++ dumpsArrRest xs)

def dumpEntry (kv : String × Json) : List Char :=
  dumpString kv.1 ++ ':' :: ' ' :: dumps kv.2

def dumpsObjRest : List (String × Json) → List Char
  | [] => []
  | kv :: kvs => ',' :: ' ' :: (dumpEntry kv ++ dumpsObjRest kvs)

end

/-- JSON whitespace (`json`'s `[ \t\n\r]*`). -/
def isWsChar (c : Char) : Bool := c = ' ' || c = '\t' || c = '\n' || c = '\r'

def skipWs (s : List Char) : List Char := s.dropWhile isWsChar

def isDigitCh (c : Char) : Bool := 48 ≤ c.toNat && c.toNat ≤ 57

/-- Longest digit prefix and the remainder. -/
def spanDigits (s : List Char) : List Char × List Char :=
  (s.takeWhile isDigitCh, s.dropWhile isDigitCh)

/-- Numeric value of a digit string. -/
def digitsVal (ds : List Char) : Nat :=
  ds.foldl (fun a c => a * 10 + (c.toNat - 48)) 0

def hexVal (c : Char) : Option Nat :=
  if 48 ≤ c.toNat ∧ c.toNat ≤ 57 then some (c.toNat - 48)
  else if 97 ≤ c.toNat ∧ c.toNat ≤ 102 then some (c.toNat - 97 + 10)
  else if 65 ≤ c.toNat ∧ c.toNat ≤ 70 then some (c.toNat - 65 + 10)
  else none

def hex4Val (h1 h2 h3 h4 : Char) : Option Nat := do
  let a ← hexVal h1
  let b ← hexVal h2
  let c ← hexVal h3
  let d ← hexVal h4
  pure (a * 4096 + b * 256 + c * 16 + d)

def unescapeChar (e : Char) : Option Char :=
  if e = '"' then some '"'
  else if e = '\\' then some '\\'
  else if e = '/' then some '/'
  else if e = 'b' then some (Char.ofNat 8)
  else if e = 'f' then some (Char.ofNat 12)
  else if e = 'n' then some '\n'
  else if e = 'r' then some '\r'
  else if e = 't' then some '\t'
  else none

/-- The body of a JSON string literal, after the opening quote, in
`json`'s strict mode: raw control characters are rejected, escapes are
decoded, `\uXXXX` surrogate pairs are combined.  (A lone surrogate
escape, which CPython turns into a lone-surrogate `str`, has no Unicode
scalar value and is rejected by this model.)  Fuel-driven;
`fuel > length` of the input always suffices. -/
def parseStringChars : Nat → List Char → Option (List Char × List Char)
  | 0, _ => none
  | fuel + 1, s =>
    match s with
    | [] => none
    | c :: rest =>
      if c = '"' then some ([], rest)
      else if c = '\\' then
        match rest with
        | [] => none
        | e :: rest2 =>
          if e = 'u' then
            match rest2 with
            | h1 :: h2 :: h3 :: h4 :: rest3 =>
              match hex4Val h1 h2 h3 h4 with
              | none => none
              | some n =>
                if 55296 ≤ n ∧ n < 56320 then
                  match rest3 with
                  | b :: u :: g1 :: g2 :: g3 :: g4 :: rest4 =>
                    if b = '\\' ∧ u = 'u' then
                      match hex4Val g1 g2 g3 g4 with
                      | none => none
                      | some m =>
                        if 56320 ≤ m ∧ m < 57344 then
                          match parseStringChars fuel rest4 with
                          | none => none
                          | some (cs, r) =>
                            some (Char.ofNat (65536 + (n - 55296) * 1024 + (m - 56320)) :: cs,
                              r)
                        else none
                    else none
                  | _ => none
                else if 56320 ≤ n ∧ n < 57344 then none
                else
                  match parseStringChars fuel rest3 with
                  | none => none
                  | some (cs, r) => some (Char.ofNat n :: cs, r)
            | _ => none
          else
            match unescapeChar e with
            | none => none
            | some ec =>
              match parseStringChars fuel rest2 with
              | none => none
              | some (cs, r) => some (ec :: cs, r)
      else if c.toNat < 32 then none
      else
        match parseStringChars fuel rest with
        | none => none
        | some (cs, r) => some (c :: cs, r)

/-- Multiply a rational by a (possibly negative) power of ten. -/
def qMulPow10 (q : ℚ) (e : Int) : ℚ :=
  if 0 ≤ e then qMul q (mkRat (10 ^ e.toNat) 1) else qMul q (mkRat 1 (10 ^ (-e).toNat))

/-- Whether the input starts with a `-` sign. -/
def isNegSign : List Char → Bool
  | '-' :: _ => true
  | _ => false

/-- Whether the input starts with the given character. -/
def headIs (s : List Char) (c : Char) : Bool :=
  match s with
  | x :: _ => x == c
  | [] => false

/-- The optional fraction part `\.[0-9]+` (longest match); a `.` not
followed by a digit is left unconsumed. -/
def parseFracPart (r1 : List Char) : List Char × List Char :=
  match r1 with
  | '.' :: d :: _ =>
    if isDigitCh d then spanDigits (d :: r1.tail.tail) else ([], r1)
  | _ => ([], r1)

/-- The optional exponent part `[eE][+-]?[0-9]+` (longest match); a
partial exponent is left unconsumed. -/
def parseExpPart (r2 : List Char) : Option Int × List Char :=
  match r2 with
  | e :: tl =>
    if e = 'e' ∨ e = 'E' then
      match tl with
      | '+' :: d :: _ =>
        if isDigitCh d then
          (some ((digitsVal (spanDigits (d :: tl.tail.tail)).1 : Int)),
            (spanDigits (d :: tl.tail.tail)).2)
        else (none, r2)
      | '-' :: d :: _ =>
        if isDigitCh d then
          (some (-(digitsVal (spanDigits (d :: tl.tail.tail)).1 : Int)),
            (spanDigits (d :: tl.tail.tail)).2)
        else (none, r2)
      | d :: _ =>
        if isDigitCh d then
          (some ((digitsVal (spanDigits (d :: tl.tail)).1 : Int)),
            (spanDigits (d :: tl.tail)).2)
        else (none, r2)
      | [] => (none, r2)
    else (none, r2)
  | [] => (none, r2)

/-- The digits-and-parts phase of the number grammar, after the optional
sign has been stripped (`signNeg` records whether it was present). -/
def parseNumBody (signNeg : Bool) (s1 : List Char) : Option (Json × List Char) :=
  match s1 with
  | c :: r =>
    if ¬ isDigitCh c then none
    else
      let (intDs, r1) :=
        if c = '0' then ([c], r)
        else spanDigits (c :: r)
      let (fracDs, r2) := parseFracPart r1
      let (expVal, r3) := parseExpPart r2
      let mantissa : ℚ :=
        mkRat (digitsVal intDs * 10 ^ fracDs.length + digitsVal fracDs) (10 ^ fracDs.length)
      let valueAbs : ℚ :=
        match expVal with
        | none => mantissa
        | some e => qMulPow10 mantissa e
      let value : ℚ := if signNeg then qMul (mkRat (-1) 1) valueAbs else valueAbs
      some (.num value, r3)
  | [] => none

/-- The number grammar of `json` (`-? (0 | [1-9][0-9]*) (\.[0-9]+)?
([eE][+-]?[0-9]+)?`), longest match; a partial fraction or exponent is
left unconsumed. -/
def parseNumber (s : List Char) : Option (Json × List Char) :=
  let signNeg := isNegSign s
  parseNumBody signNeg (if signNeg then s.tail else s)

/-- Python dict construction from parsed key-value pairs: the first
occurrence keeps its position, a duplicate key overwrites the value. -/
def objInsert : List (String × Json) → String → Json → List (String × Json)
  | [], k, v => [(k, v)]
  | kv :: rest, k, v =>
    if kv.1 == k then (kv.1, v) :: rest else kv :: objInsert rest k v

def dictify (pairs : List (String × Json)) : List (String × Json) :=
  pairs.foldl (fun acc kv => objInsert acc kv.1 kv.2) []

mutual

/-- The recursive-descent value parser of the `json` module (fuel-driven;
`fuel > length` of the input always suffices).  `NaN`/`Infinity`, which
CPython accepts as floats, are outside the rational-number model and are
rejected. -/
def parseValue : Nat → List Char → Option (Json × List Char)
  | 0, _ => none
  | fuel + 1, s =>
    match s with
    | [] => none
    | c :: rest =>
      if c = '"' then
        match parseStringChars (rest.length + 1) rest with
        | none => none
        | some (cs, r) => some (.str (String.mk cs), r)
      else if c = '[' then
        let r1 := skipWs rest
        if headIs r1 ']' then some (.arr [], r1.tail)
        else
          match parseValue fuel r1 with
          | none => none
          | some (x, r2) =>
            match parseArrMore fuel r2 with
            | none => none
            | some (xs, r3) => some (.arr (x :: xs), r3)
      else if c = '{' then
        let r1 := skipWs rest
        if headIs r1 '}' then some (.obj [], r1.tail)
        else
          match parseObjEntry fuel r1 with
          | none => none
          | some (kv, r2) =>
            match parseObjMore fuel r2 with
            | none => none
            | some (kvs, r3) => some (.obj (dictify (kv :: kvs)), r3)
      else if c = 't' then
        match rest with
        | 'r' :: 'u' :: 'e' :: r => some (.bool true, r)
        | _ => none
      else if c = 'f' then
        match rest with
        | 'a' :: 'l' :: 's' :: 'e' :: r => some (.bool false, r)
        | _ => none
      else if c = 'n' then
        match rest with
        | 'u' :: 'l' :: 'l' :: r => some (.null, r)
        | _ => none
      else parseNumber (c :: rest)

/-- After the first array element: `, value`* `]`. -/
def parseArrMore : Nat → List Char → Option (List Json × List Char)
  | 0, _ => none
  | fuel + 1, s =>
    let s1 := skipWs s
    if headIs s1 ']' then some ([], s1.tail)
    else if headIs s1 ',' then
      match parseValue fuel (skipWs s1.tail) with
      | none => none
      | some (x, r2) =>
        match parseArrMore fuel r2 with
        | none => none
        | some (xs, r3) => some (x :: xs, r3)
    else none

/-- One `"key" : value` object entry. -/
def parseObjEntry : Nat → List Char → Option ((String × Json) × List Char)
  | 0, _ => none
  | fuel + 1, s =>
    if headIs s '"' then
      match parseStringChars (s.tail.length + 1) s.tail with
      | none => none
      | some (ks, r1) =>
        let r1w := skipWs r1
        if headIs r1w ':' then
          match parseValue fuel (skipWs r1w.tail) with
          | none => none
          | some (v, r3) => some ((String.mk ks, v), r3)
        else none
    else none

/-- After the first object entry: `, entry`* `}`. -/
def parseObjMore : Nat → List Char → Option (List (String × Json) × List Char)
  | 0, _ => none
  | fuel + 1, s =>
    let s1 := skipWs s
    if headIs s1 '}' then some ([], s1.tail)
    else if headIs s1 ',' then
      match parseObjEntry fuel (skipWs s1.tail) with
      | none => none
      | some (kv, r2) =>
        match parseObjMore fuel r2 with
        | none => none
        | some (kvs, r3) => some (kv :: kvs, r3)
    else none

end

/-- `json.loads` on text: skip leading whitespace, parse one value,
require only whitespace to follow (`Extra data` otherwise). -/
def jsonLoads (s : List Char) : Except Unit Json :=
  let s1 := skipWs s
  match parseValue (s1.length + 1) s1 with
  | some (v, rest) => if skipWs rest = [] then .ok v else .error ()
  | none => .error ()

/-- The decode-stage outcome.  The first four constructors are the
`BlueprintParseError` cases (the spec's `FormatError`): a bad version
marker raised directly, and the three library exceptions
(`binascii.Error`, `zlib.error`, `json.JSONDecodeError`) caught and
re-raised.  `asciiError` (plain `ValueError` from `b64decode` on a
non-ASCII string) and `unicodeError` (`UnicodeDecodeError` from
`json.loads` on invalid UTF-8) are NOT caught by the `except` clause and
escape as themselves. -/
inductive DecodeErr where
  | badMarker
  | badEncoding
  | badCompression
  | badDocument
  | asciiError
  | unicodeError
deriving DecidableEq

def DecodeErr.isFormatError : DecodeErr → Bool
  | .asciiError => false
  | .unicodeError => false
  | _ => true

namespace BlueprintParser

/-- `BlueprintParser.decode`: check the `"0"` marker, base64-decode the
remainder (`b64decode` first requires a pure-ASCII string, then runs the
lenient `a2b_base64`), inflate, parse the JSON text. -/
def decode (blueprint_string : List Char) : Except DecodeErr Json :=
  match blueprint_string with
  | [] => .error .badMarker
  | c :: encoded =>
    if c = '0' then
      if encoded.any (fun ch => 128 ≤ ch.toNat) then .error .asciiError
      else
        match a2b encoded 0 0 0 with
        | .error _ => .error .badEncoding
        | .ok compressed =>
          match zlibDecompress compressed with
          | .error _ => .error .badCompression
          | .ok jsonBytes =>
            match utf8Decode (jsonBytes.length + 1) jsonBytes with
            | none => .error .unicodeError
            | some chars =>
              match jsonLoads chars with
              | .error _ => .error .badDocument
              | .ok doc => .ok doc
    else .error .badMarker

/-- The encoder used by the repository's test suite
(`create_test_blueprint`): `"0" + b64encode(zlib.compress(
json.dumps(document).encode("utf-8")))`; also the wire format of the
spec. -/
def encode (document : Json) : List Char :=
  '0' :: b64encode (zlibCompress (utf8Encode (dumps document)))

end BlueprintParser

/-- Pairwise-distinct object keys (automatic for any value produced by a
Python `dict`). -/
def keysDistinct : List (String × Json) → Bool
  | [] => true
  | kv :: rest => rest.all (fun kv2 => ¬ (kv2.1 == kv.1)) && keysDistinct rest

mutual

/-- The image of the Python data model inside `Json`: every number is
exactly representable in decimal (true of every Python `int`, and of every
`float`, whose denominator is a power of two), and object keys are
pairwise distinct (true of every `dict`).  Values outside this predicate
(denominator 3, a duplicated key) are artifacts of the embedding with no
Python counterpart. -/
def wellFormedDoc : Json → Bool
  | .null => true
  | .bool _ => true
  | .num q => (decExp q.den).isSome
  | .str _ => true
  | .arr xs => wellFormedList xs
  | .obj kvs => keysDistinct kvs && wellFormedObj kvs

def wellFormedList : List Json → Bool
  | [] => true
  | x :: xs => wellFormedDoc x && wellFormedList xs

def wellFormedObj : List (String × Json) → Bool
  | [] => true
  | kv :: kvs => wellFormedDoc kv.2 && wellFormedObj kvs

end

/-- The character after a printed number must not extend the numeric
literal (holds for `]`, `\x7d`, `,` and end of input, the only characters
that follow a number in `dumps` output). -/
def numDelim : List Char → Prop
  | [] => True
  | c :: _ => ¬ (isDigitCh c = true) ∧ c ≠ '.' ∧ c ≠ 'e' ∧ c ≠ 'E'

/-! ## Theorems -/

theorem qSub_eq (a b : ℚ) : qSub a b = a - b := by
  have ha : ((a.den : ℚ)) ≠ 0 := by exact_mod_cast a.den_nz
  have hb : ((b.den : ℚ)) ≠ 0 := by exact_mod_cast b.den_nz
  have hA := Rat.num_div_den a
  have hB := Rat.num_div_den b
  rw [div_eq_iff ha] at hA
  rw [div_eq_iff hb] at hB
  rw [qSub, Rat.mkRat_eq_div]
  push_cast
  rw [div_eq_iff (mul_ne_zero ha hb), hA, hB]
  ring

theorem qAdd_eq (a b : ℚ) : qAdd a b = a + b := by
  have ha : ((a.den : ℚ)) ≠ 0 := by exact_mod_cast a.den_nz
  have hb : ((b.den : ℚ)) ≠ 0 := by exact_mod_cast b.den_nz
  have hA := Rat.num_div_den a
  have hB := Rat.num_div_den b
  rw [div_eq_iff ha] at hA
  rw [div_eq_iff hb] at hB
  rw [qAdd, Rat.mkRat_eq_div]
  push_cast
  rw [div_eq_iff (mul_ne_zero ha hb), hA, hB]
  ring

theorem qMul_eq (a b : ℚ) : qMul a b = a * b := by
  have ha : ((a.den : ℚ)) ≠ 0 := by exact_mod_cast a.den_nz
  have hb : ((b.den : ℚ)) ≠ 0 := by exact_mod_cast b.den_nz
  have hA := Rat.num_div_den a
  have hB := Rat.num_div_den b
  rw [div_eq_iff ha] at hA
  rw [div_eq_iff hb] at hB
  rw [qMul, Rat.mkRat_eq_div]
  push_cast
  rw [div_eq_iff (mul_ne_zero ha hb), hA, hB]
  ring

theorem ratTrunc_intCast (n : Int) : ratTrunc (n : ℚ) = n := by
  simp [ratTrunc, Rat.num_intCast, Rat.den_intCast, Int.tdiv_one]


namespace BlueprintParser

/-- C2: `_decode_version(v)` realises the shift-and-mask formulas
`(v >> k) & 0xFFFF` (floor division by `2^k` followed by the non-negative
remainder mod `2^16`) for every integer `v`, with the lowest 16 bits
discarded; at `v = 0` the special zero branch agrees with the formulas;
and the two pinned instances hold. -/
theorem decode_version_formula :
    (∀ v : ℤ, decode_version v =
      ⟨Int.emod (Int.ediv v 281474976710656) 65536,
       Int.emod (Int.ediv v 4294967296) 65536,
       Int.emod (Int.ediv v 65536) 65536⟩) ∧
    decode_version 0 = ⟨0, 0, 0⟩ ∧
    decode_version 281474976710656 = ⟨1, 0, 0⟩ := by
  refine ⟨fun v => ?_, by decide, by decide⟩
  by_cases h : v = 0
  · subst h
    decide
  · simp only [decode_version, h, if_false]
    norm_num [pyAnd16, pyShr]

end BlueprintParser

theorem ite_lt_eq_min (x y : ℚ) :
    (if y < x then Json.num y else Json.num x) = Json.num (min x y) := by
  by_cases h : y < x
  · simp [h, min_eq_right (le_of_lt h)]
  · simp [h, min_eq_left (le_of_not_lt h)]

theorem ite_lt_eq_max (x y : ℚ) :
    (if x < y then Json.num y else Json.num x) = Json.num (max x y) := by
  by_cases h : x < y
  · simp [h, max_eq_right (le_of_lt h)]
  · simp [h, max_eq_left (le_of_not_lt h)]

theorem pyMin_nums (x : ℚ) (xs : List ℚ) :
    pyMin (Json.num x :: xs.map Json.num) = .ok (.num (xs.foldl min x)) := by
  suffices h : ∀ (x : ℚ),
      (xs.map Json.num).foldlM (fun cur y => do
        let b ← pyLtB y cur
        pure (if b then y else cur)) (Json.num x) = .ok (.num (xs.foldl min x)) by
    simpa [pyMin] using h x
  induction xs with
  | nil => intro x; rfl
  | cons y ys ih =>
    intro x
    simpa [pyLtB, ite_lt_eq_min, bind, Except.bind, pure, Except.pure] using ih (min x y)

theorem pyMax_nums (x : ℚ) (xs : List ℚ) :
    pyMax (Json.num x :: xs.map Json.num) = .ok (.num (xs.foldl max x)) := by
  suffices h : ∀ (x : ℚ),
      (xs.map Json.num).foldlM (fun cur y => do
        let b ← pyLtB cur y
        pure (if b then y else cur)) (Json.num x) = .ok (.num (xs.foldl max x)) by
    simpa [pyMax] using h x
  induction xs with
  | nil => intro x; rfl
  | cons y ys ih =>
    intro x
    simpa [pyLtB, ite_lt_eq_max, bind, Except.bind, pure, Except.pure] using ih (max x y)

theorem pySub_nums (a b : ℚ) : pySub (.num a) (.num b) = .ok (.num (a - b)) := by
  simp [pySub, jnum?, qSub_eq]

namespace BlueprintParser

/-- The bounding-box formula of `_calculate_dimensions`, for an entity
list whose collected coordinate lists consist of numbers. -/
theorem calculate_dimensions_arr (E ps : List Json) (xs ys : List ℚ)
    (hE : E ≠ [])
    (hps : mapPositions E = .ok ps)
    (hxs : collectCoord "x" ps = .ok (xs.map Json.num))
    (hys : collectCoord "y" ps = .ok (ys.map Json.num)) :
    calculate_dimensions (.arr E) = .ok
      (if xs.isEmpty || ys.isEmpty then ⟨0, 0⟩
       else ⟨ratTrunc ((xs.max?.getD 0) - (xs.min?.getD 0)) + 1,
             ratTrunc ((ys.max?.getD 0) - (ys.min?.getD 0)) + 1⟩) := by
  have hTruthy : pyTruthy (.arr E) = true := by
    cases E with
    | nil => exact absurd rfl hE
    | cons a l => simp [pyTruthy]
  simp only [calculate_dimensions, hTruthy, Bool.true_eq_false, if_false,
    pyIter, bind, Except.bind, hps, hxs, hys]
  cases hxe : xs with
  | nil => simp [pure, Except.pure]
  | cons x xs' =>
    cases hye : ys with
    | nil => simp [pure, Except.pure]
    | cons y ys' =>
      simp only [List.isEmpty_cons, Bool.false_or, Bool.or_false, if_false,
        List.map_cons, pyMin_nums, pyMax_nums, pySub_nums, pyToInt]
      simp [List.min?, List.max?, pure, Except.pure]

end BlueprintParser

namespace BlueprintParser

/-- C3: for every entity list, with the `x`/`y` coordinates collected
independently from the positions containing the respective key, the
dimensions are `0 × 0` when either collected list is empty and otherwise
`⌊max − min⌋ + 1` per axis (truncation toward zero); in particular
entities at `(0,0)` and `(5,3)` yield `width = 6`, `height = 4`. -/
theorem calculate_dimensions_spec :
    calculate_dimensions (.arr []) = .ok ⟨0, 0⟩ ∧
    (∀ (E ps : List Json) (xs ys : List ℚ),
      E ≠ [] →
      mapPositions E = .ok ps →
      collectCoord "x" ps = .ok (xs.map Json.num) →
      collectCoord "y" ps = .ok (ys.map Json.num) →
      calculate_dimensions (.arr E) = .ok
        (if xs.isEmpty || ys.isEmpty then ⟨0, 0⟩
         else ⟨ratTrunc ((xs.max?.getD 0) - (xs.min?.getD 0)) + 1,
               ratTrunc ((ys.max?.getD 0) - (ys.min?.getD 0)) + 1⟩)) ∧
    calculate_dimensions (.arr [entityAt 0 0, entityAt 5 3]) = .ok ⟨6, 4⟩ :=
  ⟨rfl, fun E ps xs ys hE hps hxs hys =>
    calculate_dimensions_arr E ps xs ys hE hps hxs hys, rfl⟩

/-- Witness for C3: the hypotheses hold at the two-entity box
`[(0,0), (5,3)]` and the theorem applies there. -/
theorem calculate_dimensions_spec_witness :
    (([entityAt 0 0, entityAt 5 3] : List Json) ≠ [] ∧
      mapPositions [entityAt 0 0, entityAt 5 3]
        = .ok [.obj [("x", .num (mkRat 0 1)), ("y", .num (mkRat 0 1))],
               .obj [("x", .num (mkRat 5 1)), ("y", .num (mkRat 3 1))]]) ∧
    calculate_dimensions (.arr [entityAt 0 0, entityAt 5 3]) = .ok
      (if ([mkRat 0 1, mkRat 5 1] : List ℚ).isEmpty
            || ([mkRat 0 1, mkRat 3 1] : List ℚ).isEmpty then ⟨0, 0⟩
       else ⟨ratTrunc ((([mkRat 0 1, mkRat 5 1] : List ℚ).max?.getD 0)
                - (([mkRat 0 1, mkRat 5 1] : List ℚ).min?.getD 0)) + 1,
             ratTrunc ((([mkRat 0 1, mkRat 3 1] : List ℚ).max?.getD 0)
                - (([mkRat 0 1, mkRat 3 1] : List ℚ).min?.getD 0)) + 1⟩) :=
  ⟨⟨by simp, rfl⟩,
    calculate_dimensions_spec.2.1 [entityAt 0 0, entityAt 5 3]
      [.obj [("x", .num (mkRat 0 1)), ("y", .num (mkRat 0 1))],
       .obj [("x", .num (mkRat 5 1)), ("y", .num (mkRat 3 1))]]
      [mkRat 0 1, mkRat 5 1] [mkRat 0 1, mkRat 3 1]
      (by simp) rfl rfl rfl⟩

/-- C7 counterexample: an entity with only an `x` coordinate and an entity
with only a `y` coordinate — no single entity has both keys — yet
`extract_metadata` reports `width = 1`, `height = 1`, not `0 × 0`:
each axis list is separately non-empty. -/
theorem no_both_coords_counterexample :
    (([xOnlyEntity, yOnlyEntity] : List Json).all (fun e => !hasBothCoords e)) = true ∧
    extract_metadata (.obj [("blueprint",
        .obj [("entities", .arr [xOnlyEntity, yOnlyEntity])])])
      = .ok (.single
          { name := .str "Untitled Blueprint"
            description := .str ""
            entity_count := 2
            entity_counts := [(.str "unknown", 2)]
            width := 1
            height := 1
            version_major := 0
            version_minor := 0
            version_patch := 0 }) :=
  ⟨rfl, rfl⟩

/-- C7 amended: the dimensions are `0 × 0` exactly on an empty collected
axis — when the entity list is empty, or when no entity's position
contains an `x` key, or none contains a `y` key (each axis considered
independently). -/
theorem dims_zero_of_empty_axis :
    ∀ (E ps : List Json) (xs ys : List ℚ),
      mapPositions E = .ok ps →
      collectCoord "x" ps = .ok (xs.map Json.num) →
      collectCoord "y" ps = .ok (ys.map Json.num) →
      xs = [] ∨ ys = [] →
      calculate_dimensions (.arr E) = .ok ⟨0, 0⟩ := by
  intro E ps xs ys hps hxs hys hempty
  cases E with
  | nil => rfl
  | cons e E' =>
    rw [calculate_dimensions_arr (e :: E') ps xs ys (by simp) hps hxs hys]
    have : (xs.isEmpty || ys.isEmpty) = true := by
      rcases hempty with h | h <;> simp [h]
    rw [this]
    simp

/-- Witness for the C7 amended theorem: a single `y`-only entity gives an
empty collected `x` list and `0 × 0` dimensions. -/
theorem dims_zero_of_empty_axis_witness :
    (mapPositions [yOnlyEntity]
        = .ok [.obj [("y", .num (mkRat 7 1))]] ∧
      collectCoord "x" [.obj [("y", .num (mkRat 7 1))]] = .ok [] ∧
      collectCoord "y" [.obj [("y", .num (mkRat 7 1))]]
        = .ok ([mkRat 7 1].map Json.num)) ∧
    calculate_dimensions (.arr [yOnlyEntity]) = .ok ⟨0, 0⟩ :=
  ⟨⟨rfl, rfl, rfl⟩,
    dims_zero_of_empty_axis [yOnlyEntity] [.obj [("y", .num (mkRat 7 1))]]
      [] [mkRat 7 1] rfl rfl rfl (Or.inl rfl)⟩

end BlueprintParser

namespace BlueprintParser

theorem collectCoord_append (key : String) (l1 l2 : List Json) :
    collectCoord key (l1 ++ l2) = (do
      let a ← collectCoord key l1
      let b ← collectCoord key l2
      pure (a ++ b)) := by
  induction l1 with
  | nil =>
    simp only [List.nil_append, collectCoord, bind, Except.bind, pure, Except.pure]
    cases collectCoord key l2 <;> rfl
  | cons p ps ih =>
    cases hc : pyContains p (.str key) with
    | error e => simp [collectCoord, hc, bind, Except.bind]
    | ok b =>
      cases b with
      | false => simp [collectCoord, hc, bind, Except.bind, List.append_eq, ih]
      | true =>
        cases hg : pyGet p key (.num 0) with
        | error e => simp [collectCoord, hc, hg, bind, Except.bind]
        | ok v =>
          simp only [List.cons_append, collectCoord, hc, hg, bind, Except.bind,
            List.append_eq, ih]
          cases collectCoord key ps with
          | error e => rfl
          | ok a =>
            cases collectCoord key l2 <;> rfl

theorem foldl_max_cast (x : ℤ) (xs : List ℤ) :
    (xs.map (fun n : ℤ => (n : ℚ))).foldl max ((x : ℤ) : ℚ) = ((xs.foldl max x : ℤ) : ℚ) := by
  induction xs generalizing x with
  | nil => rfl
  | cons y ys ih =>
    simp only [List.map_cons, List.foldl_cons, ← Int.cast_max]
    exact ih (max x y)

theorem foldl_min_cast (x : ℤ) (xs : List ℤ) :
    (xs.map (fun n : ℤ => (n : ℚ))).foldl min ((x : ℤ) : ℚ) = ((xs.foldl min x : ℤ) : ℚ) := by
  induction xs generalizing x with
  | nil => rfl
  | cons y ys ih =>
    simp only [List.map_cons, List.foldl_cons, ← Int.cast_min]
    exact ih (min x y)

theorem le_foldl_max (x : ℤ) (xs : List ℤ) : x ≤ xs.foldl max x := by
  induction xs generalizing x with
  | nil => exact le_refl x
  | cons y ys ih =>
    exact le_trans (le_max_left x y) (ih (max x y))

theorem foldl_min_le (x : ℤ) (xs : List ℤ) : xs.foldl min x ≤ x := by
  induction xs generalizing x with
  | nil => exact le_refl x
  | cons y ys ih =>
    exact le_trans (ih (min x y)) (min_le_left x y)

theorem ratTrunc_int_sub (a b : ℤ) : ratTrunc ((a : ℚ) - (b : ℚ)) = a - b := by
  rw [show ((a : ℚ) - (b : ℚ)) = ((a - b : ℤ) : ℚ) by push_cast; ring, ratTrunc_intCast]

end BlueprintParser

namespace BlueprintParser

theorem mapPositions_append (l1 l2 : List Json) :
    mapPositions (l1 ++ l2) = (do
      let a ← mapPositions l1
      let b ← mapPositions l2
      pure (a ++ b)) := by
  induction l1 with
  | nil =>
    simp only [List.nil_append, mapPositions, bind, Except.bind, pure, Except.pure]
    cases mapPositions l2 <;> rfl
  | cons e es ih =>
    cases hg : pyGet e "position" (.obj []) with
    | error err => simp [mapPositions, hg, bind, Except.bind]
    | ok p =>
      simp only [List.cons_append, mapPositions, hg, bind, Except.bind,
        List.append_eq, ih]
      cases mapPositions es with
      | error err => rfl
      | ok a =>
        cases mapPositions l2 <;> rfl

end BlueprintParser

namespace BlueprintParser

/-- C9 counterexample: with fractional coordinates the claim fails.  The
entities sit at `x = 0` and `x = 3/2` (width `⌊3/2⌋ + 1 = 2`); the added
entity's `x = 19/10` lies strictly outside the x-extent (it exceeds every
collected `x`), yet the recomputed width is still `2`: the dimension
neither strictly increases nor changes by the delta `19/10 − 3/2`. -/
theorem dims_monotone_counterexample :
    calculate_dimensions (.arr [entityAtQ (mkRat 0 1) (mkRat 0 1),
        entityAtQ (mkRat 3 2) (mkRat 0 1)]) = .ok ⟨2, 1⟩ ∧
    calculate_dimensions (.arr [entityAtQ (mkRat 0 1) (mkRat 0 1),
        entityAtQ (mkRat 3 2) (mkRat 0 1),
        entityAtQ (mkRat 19 10) (mkRat 0 1)]) = .ok ⟨2, 1⟩ ∧
    (([mkRat 0 1, mkRat 3 2] : List ℚ).all (fun q => q < mkRat 19 10)) = true :=
  ⟨rfl, rfl, by decide⟩

/-- C9 amended: for integer coordinates, adding an entity whose `x`
(resp. `y`) coordinate lies strictly outside the current extent strictly
increases the corresponding dimension, exactly by the distance between the
new coordinate and the exceeded extent bound.  (With fractional
coordinates the truncation can absorb the change.) -/
theorem dims_monotone_outside :
    ∀ (E ps : List Json) (xs ys : List ℤ) (e' p' : Json) (x' y' : ℤ),
      mapPositions E = .ok ps →
      collectCoord "x" ps = .ok (xs.map (fun n : ℤ => Json.num (n : ℚ))) →
      collectCoord "y" ps = .ok (ys.map (fun n : ℤ => Json.num (n : ℚ))) →
      xs ≠ [] → ys ≠ [] →
      pyGet e' "position" (.obj []) = .ok p' →
      collectCoord "x" [p'] = .ok [Json.num ((x' : ℤ) : ℚ)] →
      collectCoord "y" [p'] = .ok [Json.num ((y' : ℤ) : ℚ)] →
      ∃ w h w' h',
        calculate_dimensions (.arr E) = .ok ⟨w, h⟩ ∧
        calculate_dimensions (.arr (E ++ [e'])) = .ok ⟨w', h'⟩ ∧
        (∀ mx ∈ xs.max?, mx < x' → w' = w + (x' - mx) ∧ w < w') ∧
        (∀ mn ∈ xs.min?, x' < mn → w' = w + (mn - x') ∧ w < w') ∧
        (∀ my ∈ ys.max?, my < y' → h' = h + (y' - my) ∧ h < h') ∧
        (∀ mn ∈ ys.min?, y' < mn → h' = h + (mn - y') ∧ h < h') := by
  intro E ps xs ys e' p' x' y' hps hxs hys hxne hyne hp' hx' hy'
  obtain ⟨x0, xs0, rfl⟩ : ∃ a l, xs = a :: l := by
    cases xs with
    | nil => exact absurd rfl hxne
    | cons a l => exact ⟨a, l, rfl⟩
  obtain ⟨y0, ys0, rfl⟩ : ∃ a l, ys = a :: l := by
    cases ys with
    | nil => exact absurd rfl hyne
    | cons a l => exact ⟨a, l, rfl⟩
  have hEne : E ≠ [] := by
    rintro rfl
    rw [show mapPositions [] = .ok [] from rfl] at hps
    injection hps with hps
    subst hps
    rw [show collectCoord "x" [] = .ok [] from rfl] at hxs
    injection hxs with hxs
    simp at hxs
  have hps2 : mapPositions (E ++ [e']) = .ok (ps ++ [p']) := by
    rw [mapPositions_append]
    simp [hps, hp', bind, Except.bind, pure, Except.pure, mapPositions]
  have hxs2 : collectCoord "x" (ps ++ [p'])
      = .ok (((x0 :: xs0) ++ [x']).map (fun n : ℤ => Json.num (n : ℚ))) := by
    rw [collectCoord_append]
    simp [hxs, hx', bind, Except.bind, pure, Except.pure]
  have hys2 : collectCoord "y" (ps ++ [p'])
      = .ok (((y0 :: ys0) ++ [y']).map (fun n : ℤ => Json.num (n : ℚ))) := by
    rw [collectCoord_append]
    simp [hys, hy', bind, Except.bind, pure, Except.pure]
  have hxsQ : collectCoord "x" ps
      = .ok (((x0 :: xs0).map (fun n : ℤ => (n : ℚ))).map Json.num) := by
    simpa [List.map_map, Function.comp] using hxs
  have hysQ : collectCoord "y" ps
      = .ok (((y0 :: ys0).map (fun n : ℤ => (n : ℚ))).map Json.num) := by
    simpa [List.map_map, Function.comp] using hys
  have hxsQ2 : collectCoord "x" (ps ++ [p'])
      = .ok ((((x0 :: xs0) ++ [x']).map (fun n : ℤ => (n : ℚ))).map Json.num) := by
    simpa [List.map_map, Function.comp] using hxs2
  have hysQ2 : collectCoord "y" (ps ++ [p'])
      = .ok ((((y0 :: ys0) ++ [y']).map (fun n : ℤ => (n : ℚ))).map Json.num) := by
    simpa [List.map_map, Function.comp] using hys2
  have h1 := calculate_dimensions_arr E ps
    ((x0 :: xs0).map (fun n : ℤ => (n : ℚ)))
    ((y0 :: ys0).map (fun n : ℤ => (n : ℚ))) hEne hps hxsQ hysQ
  have h2 := calculate_dimensions_arr (E ++ [e']) (ps ++ [p'])
    (((x0 :: xs0) ++ [x']).map (fun n : ℤ => (n : ℚ)))
    (((y0 :: ys0) ++ [y']).map (fun n : ℤ => (n : ℚ)))
    (by simp [hEne]) hps2 hxsQ2 hysQ2
  simp only [List.map_cons, List.isEmpty_cons, Bool.false_or, Bool.or_self,
    if_false, List.max?, List.min?, Option.getD_some, List.cons_append,
    foldl_max_cast, foldl_min_cast, ratTrunc_int_sub, Bool.or_false] at h1 h2
  rw [show ((xs0 ++ [x']).foldl max x0) = max (xs0.foldl max x0) x' by
        rw [List.foldl_append]; rfl,
      show ((xs0 ++ [x']).foldl min x0) = min (xs0.foldl min x0) x' by
        rw [List.foldl_append]; rfl,
      show ((ys0 ++ [y']).foldl max y0) = max (ys0.foldl max y0) y' by
        rw [List.foldl_append]; rfl,
      show ((ys0 ++ [y']).foldl min y0) = min (ys0.foldl min y0) y' by
        rw [List.foldl_append]; rfl] at h2
  refine ⟨_, _, _, _, h1, h2, ?_, ?_, ?_, ?_⟩ <;>
    simp only [List.max?, List.min?, Option.mem_def, Option.some.injEq]
  · rintro mx rfl hlt
    have hm_le : xs0.foldl min x0 ≤ xs0.foldl max x0 :=
      le_trans (foldl_min_le x0 xs0) (le_foldl_max x0 xs0)
    rw [max_eq_right (le_of_lt hlt), min_eq_left (by omega : xs0.foldl min x0 ≤ x')]
    omega
  · rintro mn rfl hlt
    have hm_le : xs0.foldl min x0 ≤ xs0.foldl max x0 :=
      le_trans (foldl_min_le x0 xs0) (le_foldl_max x0 xs0)
    rw [min_eq_right (le_of_lt hlt), max_eq_left (by omega : x' ≤ xs0.foldl max x0)]
    omega
  · rintro my rfl hlt
    have hm_le : ys0.foldl min y0 ≤ ys0.foldl max y0 :=
      le_trans (foldl_min_le y0 ys0) (le_foldl_max y0 ys0)
    rw [max_eq_right (le_of_lt hlt), min_eq_left (by omega : ys0.foldl min y0 ≤ y')]
    omega
  · rintro mn rfl hlt
    have hm_le : ys0.foldl min y0 ≤ ys0.foldl max y0 :=
      le_trans (foldl_min_le y0 ys0) (le_foldl_max y0 ys0)
    rw [min_eq_right (le_of_lt hlt), max_eq_left (by omega : y' ≤ ys0.foldl max y0)]
    omega

end BlueprintParser

namespace BlueprintParser

/-- Witness for the C9 amended theorem: adding an entity at `(7, 1)` to the
`(0,0)/(5,3)` box, whose `x = 7` exceeds the x-extent bound `5`. -/
theorem dims_monotone_outside_witness :
    (mapPositions [entityAt 0 0, entityAt 5 3]
        = .ok [.obj [("x", .num (mkRat 0 1)), ("y", .num (mkRat 0 1))],
               .obj [("x", .num (mkRat 5 1)), ("y", .num (mkRat 3 1))]] ∧
      collectCoord "x" [.obj [("x", .num (mkRat 0 1)), ("y", .num (mkRat 0 1))],
               .obj [("x", .num (mkRat 5 1)), ("y", .num (mkRat 3 1))]]
        = .ok (([0, 5] : List ℤ).map (fun n : ℤ => Json.num (n : ℚ))) ∧
      collectCoord "y" [.obj [("x", .num (mkRat 0 1)), ("y", .num (mkRat 0 1))],
               .obj [("x", .num (mkRat 5 1)), ("y", .num (mkRat 3 1))]]
        = .ok (([0, 3] : List ℤ).map (fun n : ℤ => Json.num (n : ℚ))) ∧
      pyGet (entityAt 7 1) "position" (.obj [])
        = .ok (.obj [("x", .num (mkRat 7 1)), ("y", .num (mkRat 1 1))]) ∧
      collectCoord "x" [.obj [("x", .num (mkRat 7 1)), ("y", .num (mkRat 1 1))]]
        = .ok [Json.num ((7 : ℤ) : ℚ)] ∧
      collectCoord "y" [.obj [("x", .num (mkRat 7 1)), ("y", .num (mkRat 1 1))]]
        = .ok [Json.num ((1 : ℤ) : ℚ)]) ∧
    (∃ w h w' h',
      calculate_dimensions (.arr [entityAt 0 0, entityAt 5 3]) = .ok ⟨w, h⟩ ∧
      calculate_dimensions (.arr ([entityAt 0 0, entityAt 5 3] ++ [entityAt 7 1]))
        = .ok ⟨w', h'⟩ ∧
      (∀ mx ∈ ([0, 5] : List ℤ).max?, mx < 7 → w' = w + (7 - mx) ∧ w < w') ∧
      (∀ mn ∈ ([0, 5] : List ℤ).min?, 7 < mn → w' = w + (mn - 7) ∧ w < w') ∧
      (∀ my ∈ ([0, 3] : List ℤ).max?, my < 1 → h' = h + (1 - my) ∧ h < h') ∧
      (∀ mn ∈ ([0, 3] : List ℤ).min?, 1 < mn → h' = h + (mn - 1) ∧ h < h')) :=
  ⟨⟨rfl, rfl, rfl, rfl, rfl, rfl⟩,
    dims_monotone_outside [entityAt 0 0, entityAt 5 3]
      [.obj [("x", .num (mkRat 0 1)), ("y", .num (mkRat 0 1))],
       .obj [("x", .num (mkRat 5 1)), ("y", .num (mkRat 3 1))]]
      [0, 5] [0, 3] (entityAt 7 1)
      (.obj [("x", .num (mkRat 7 1)), ("y", .num (mkRat 1 1))]) 7 1
      rfl rfl rfl (by simp) (by simp) rfl rfl rfl⟩

end BlueprintParser

theorem pyEq_hkey_iff {a b : Json} {ka kb : HKey}
    (ha : hkey? a = some ka) (hb : hkey? b = some kb) :
    (pyEq a b = true ↔ ka = kb) := by
  cases a <;> cases b
  case bool.bool x y =>
    simp only [hkey?, Option.some.injEq] at ha hb
    subst ha
    subst hb
    cases x <;> cases y <;> simp [pyEq]
  case num.bool q y =>
    simp only [hkey?, Option.some.injEq] at ha hb
    subst ha
    subst hb
    simp only [pyEq, beq_iff_eq, HKey.numKey.injEq]
    exact ⟨fun h => h.symm, fun h => h.symm⟩
  all_goals simp [hkey?] at ha hb
  all_goals subst ha
  all_goals subst hb
  all_goals simp [pyEq]

theorem pyEq_eq_decide {a b : Json} {ka kb : HKey}
    (ha : hkey? a = some ka) (hb : hkey? b = some kb) :
    pyEq a b = decide (ka = kb) := by
  have hiff := pyEq_hkey_iff ha hb
  by_cases h : ka = kb
  · rw [hiff.mpr h]
    simp [h]
  · cases hpe : pyEq a b with
    | true => exact absurd (hiff.mp hpe) h
    | false => simp [h]

theorem pyEq_refl_hashable {a : Json} {ka : HKey} (ha : hkey? a = some ka) :
    pyEq a a = true := by
  rw [pyEq_eq_decide ha ha]
  simp

namespace BlueprintParser

theorem histLookup_cons_pos {kv : Json × Nat} {h : List (Json × Nat)} {k : Json}
    (hpe : pyEq kv.1 k = true) : histLookup (kv :: h) k = kv.2 := by
  simp [histLookup, List.find?_cons_of_pos, hpe]

theorem histLookup_cons_neg {kv : Json × Nat} {h : List (Json × Nat)} {k : Json}
    (hpe : ¬ pyEq kv.1 k = true) : histLookup (kv :: h) k = histLookup h k := by
  unfold histLookup
  rw [@List.find?_cons_of_neg _ (fun kv => pyEq kv.1 k) kv h hpe]

theorem histSet_cons_pos {kv : Json × Nat} {h : List (Json × Nat)} {k : Json} {v : Nat}
    (hpe : pyEq kv.1 k = true) : histSet (kv :: h) k v = (kv.1, v) :: h := by
  simp [histSet, hpe]

theorem histSet_cons_neg {kv : Json × Nat} {h : List (Json × Nat)} {k : Json} {v : Nat}
    (hpe : ¬ pyEq kv.1 k = true) : histSet (kv :: h) k v = kv :: histSet h k v := by
  simp [histSet, hpe]

theorem histSet_sum (h : List (Json × Nat)) (k : Json) :
    ((histSet h k (histLookup h k + 1)).map (·.2)).sum = ((h.map (·.2)).sum) + 1 := by
  induction h with
  | nil => simp [histSet, histLookup]
  | cons kv rest ih =>
    by_cases hpe : pyEq kv.1 k = true
    · rw [histLookup_cons_pos hpe, histSet_cons_pos hpe]
      simp only [List.map_cons, List.sum_cons]
      omega
    · rw [histLookup_cons_neg hpe, histSet_cons_neg hpe]
      simp only [List.map_cons, List.sum_cons]
      omega

theorem histLookup_congr (h : List (Json × Nat)) {k k' : Json} {kk kk' : HKey}
    (hk : hkey? k = some kk) (hk' : hkey? k' = some kk')
    (heq : kk = kk')
    (hkeys : ∀ kv ∈ h, (hkey? kv.1).isSome) :
    histLookup h k = histLookup h k' := by
  induction h with
  | nil => rfl
  | cons kv rest ih =>
    obtain ⟨kj, hkj⟩ := Option.isSome_iff_exists.mp (hkeys kv (by simp))
    have h1 : pyEq kv.1 k = pyEq kv.1 k' := by
      rw [pyEq_eq_decide hkj hk, pyEq_eq_decide hkj hk', heq]
    by_cases hpe : pyEq kv.1 k = true
    · rw [histLookup_cons_pos hpe, histLookup_cons_pos (h1 ▸ hpe)]
    · rw [histLookup_cons_neg hpe, histLookup_cons_neg (h1 ▸ hpe)]
      exact ih (fun p hm => hkeys p (by simp [hm]))

theorem histSet_lookup (h : List (Json × Nat)) (k k' : Json) (v : Nat)
    {kk kk' : HKey} (hk : hkey? k = some kk) (hk' : hkey? k' = some kk')
    (hkeys : ∀ kv ∈ h, (hkey? kv.1).isSome) :
    histLookup (histSet h k v) k'
      = if pyEq k k' = true then v else histLookup h k' := by
  induction h with
  | nil =>
    by_cases hpe : pyEq k k' = true
    · show histLookup [(k, v)] k' = _
      rw [histLookup_cons_pos hpe, if_pos hpe]
    · show histLookup [(k, v)] k' = _
      rw [histLookup_cons_neg hpe, if_neg hpe]
  | cons kv rest ih =>
    obtain ⟨kj, hkj⟩ := Option.isSome_iff_exists.mp (hkeys kv (by simp))
    have hrest : ∀ p ∈ rest, (hkey? p.1).isSome := fun p hm => hkeys p (by simp [hm])
    by_cases hpe : pyEq kv.1 k = true
    · -- the head key matches the inserted key: the value is replaced in place
      have hkvk : kj = kk := (pyEq_hkey_iff hkj hk).mp hpe
      have h2 : pyEq kv.1 k' = pyEq k k' := by
        rw [pyEq_eq_decide hkj hk', pyEq_eq_decide hk hk', hkvk]
      rw [histSet_cons_pos hpe]
      by_cases hpe' : pyEq k k' = true
      · rw [histLookup_cons_pos (show pyEq (kv.1, v).1 k' = true from h2 ▸ hpe'),
          if_pos hpe']
      · rw [histLookup_cons_neg (show ¬ pyEq (kv.1, v).1 k' = true from h2 ▸ hpe'),
          if_neg hpe', histLookup_cons_neg (show ¬ pyEq kv.1 k' = true from h2 ▸ hpe')]
    · -- the head key differs from the inserted key: recurse
      rw [histSet_cons_neg hpe]
      by_cases hh : pyEq kv.1 k' = true
      · -- then k ≠ k' (the head is == k' but not == k)
        have hkk' : ¬ pyEq k k' = true := by
          intro hcon
          have e1 : kj = kk' := (pyEq_hkey_iff hkj hk').mp hh
          have e2 : kk = kk' := (pyEq_hkey_iff hk hk').mp hcon
          exact hpe ((pyEq_hkey_iff hkj hk).mpr (e1.trans e2.symm))
        rw [histLookup_cons_pos hh, if_neg hkk', histLookup_cons_pos hh]
      · rw [histLookup_cons_neg hh, ih hrest]
        by_cases hpe' : pyEq k k' = true
        · rw [if_pos hpe', if_pos hpe']
        · rw [if_neg hpe', if_neg hpe', histLookup_cons_neg hh]

end BlueprintParser

namespace BlueprintParser

theorem isHashable_hkey (n : Json) : isHashable n = true ↔ (hkey? n).isSome := by
  cases n <;> simp [isHashable, hkey?]

theorem histSet_keys {h : List (Json × Nat)} {k : Json} {v : Nat} :
    ∀ p ∈ histSet h k v, (∃ q ∈ h, p.1 = q.1) ∨ p.1 = k := by
  induction h with
  | nil =>
    intro p hp
    simp only [histSet, List.mem_singleton] at hp
    subst hp
    exact Or.inr rfl
  | cons kv rest ih =>
    intro p hp
    by_cases hpe : pyEq kv.1 k = true
    · rw [histSet_cons_pos hpe] at hp
      rcases List.mem_cons.mp hp with h1 | h1
      · subst h1; exact Or.inl ⟨kv, by simp⟩
      · exact Or.inl ⟨p, by simp [h1]⟩
    · rw [histSet_cons_neg hpe] at hp
      rcases List.mem_cons.mp hp with h1 | h1
      · subst h1; exact Or.inl ⟨p, by simp⟩
      · rcases ih p h1 with ⟨q, hq, he⟩ | he
        · exact Or.inl ⟨q, by simp [hq], he⟩
        · exact Or.inr he

theorem histSet_wf {h : List (Json × Nat)} {k : Json} {kk : HKey} {v : Nat}
    (hw : HistWF h) (hk : hkey? k = some kk) : HistWF (histSet h k v) := by
  induction h with
  | nil =>
    constructor
    · simp [histSet]
    · intro kv hkv
      simp only [histSet, List.mem_singleton] at hkv
      subst hkv
      simp [hk]
  | cons kv rest ih =>
    obtain ⟨hpw, hkeys⟩ := hw
    rw [List.pairwise_cons] at hpw
    obtain ⟨hhead, hrest⟩ := hpw
    have hwrest : HistWF rest := ⟨hrest, fun p hp => hkeys p (by simp [hp])⟩
    by_cases hpe : pyEq kv.1 k = true
    · rw [histSet_cons_pos hpe]
      refine ⟨List.pairwise_cons.mpr ⟨fun q hq => hhead q hq, hrest⟩, ?_⟩
      intro p hp
      rcases List.mem_cons.mp hp with h1 | h1
      · subst h1; exact hkeys kv (by simp)
      · exact hkeys p (by simp [h1])
    · rw [histSet_cons_neg hpe]
      obtain ⟨ihw, ihkeys⟩ := ih hwrest
      refine ⟨List.pairwise_cons.mpr ⟨?_, ihw⟩, ?_⟩
      · intro q hq
        rcases histSet_keys q hq with ⟨q', hq', he⟩ | he
        · rw [he]; exact hhead q' hq'
        · rw [he]
          cases hb : pyEq kv.1 k with
          | true => exact absurd hb hpe
          | false => rfl
      · intro r hr
        rcases List.mem_cons.mp hr with h1 | h1
        · rw [h1]; exact hkeys kv (by simp)
        · exact ihkeys r h1

theorem histEntries_lookup {h : List (Json × Nat)} (hw : HistWF h) :
    ∀ p ∈ h, histLookup h p.1 = p.2 := by
  induction h with
  | nil => intro p hp; simp at hp
  | cons kv rest ih =>
    obtain ⟨hpw, hkeys⟩ := hw
    rw [List.pairwise_cons] at hpw
    obtain ⟨hhead, hrest⟩ := hpw
    intro p hp
    rcases List.mem_cons.mp hp with h1 | h1
    · subst h1
      obtain ⟨kk, hkk⟩ := Option.isSome_iff_exists.mp (hkeys p (by simp))
      rw [histLookup_cons_pos (pyEq_refl_hashable hkk)]
    · have hne : ¬ pyEq kv.1 p.1 = true := by
        rw [hhead p h1]
        simp
      rw [histLookup_cons_neg hne]
      exact ih ⟨hrest, fun q hq => hkeys q (by simp [hq])⟩ p h1

theorem buildHistogram_spec :
    ∀ (es : List Json) (acc h : List (Json × Nat)),
      HistWF acc → buildHistogram acc es = .ok h →
      ∃ names : List Json,
        mapNames es = .ok names ∧
        names.length = es.length ∧
        HistWF h ∧
        ((h.map (·.2)).sum = ((acc.map (·.2)).sum) + es.length) ∧
        (∀ (k : Json) (kk : HKey), hkey? k = some kk →
          histLookup h k = histLookup acc k + names.countP (fun n => pyEq n k)) := by
  intro es
  induction es with
  | nil =>
    intro acc h hw hb
    simp only [buildHistogram] at hb
    injection hb with hb
    subst hb
    exact ⟨[], rfl, rfl, hw, by simp, fun k kk hk => by simp [List.countP_nil]⟩
  | cons e es' ih =>
    intro acc h hw hb
    simp only [buildHistogram, bind, Except.bind] at hb
    cases hn : pyGet e "name" (.str "unknown") with
    | error err => rw [hn] at hb; exact absurd hb (by simp)
    | ok name =>
      simp only [hn] at hb
      cases hhash : isHashable name with
      | false =>
        simp only [hhash, Bool.false_eq_true, if_false] at hb
        exact absurd hb (by simp)
      | true =>
        simp only [hhash, if_true] at hb
        obtain ⟨nk, hnk⟩ := Option.isSome_iff_exists.mp ((isHashable_hkey name).mp hhash)
        have hw' : HistWF (histSet acc name (histLookup acc name + 1)) :=
          histSet_wf hw hnk
        obtain ⟨names', hm', hlen', hwh, hsum, hcount⟩ := ih _ _ hw' hb
        refine ⟨name :: names', ?_, by simp [hlen'], hwh, ?_, ?_⟩
        · simp [mapNames, hn, hm', bind, Except.bind, pure, Except.pure]
        · rw [hsum, histSet_sum]
          simp only [List.length_cons]
          omega
        · intro k kk hk
          rw [hcount k kk hk,
            histSet_lookup acc name k (histLookup acc name + 1) hnk hk hw.2]
          by_cases hpe : pyEq name k = true
          · rw [if_pos hpe]
            have : histLookup acc name = histLookup acc k :=
              histLookup_congr acc hnk hk ((pyEq_hkey_iff hnk hk).mp hpe) hw.2
            rw [this, List.countP_cons, hpe]
            simp only [if_true]
            omega
          · rw [if_neg hpe, List.countP_cons]
            have : (pyEq name k : Bool) = false := by
              cases hx : pyEq name k with
              | true => exact absurd hx hpe
              | false => rfl
            rw [this]
            simp

end BlueprintParser

theorem bind_ok_inv {α β : Type} {x : Except PyExc α} {f : α → Except PyExc β} {r : β}
    (h : (x >>= f) = .ok r) : ∃ a, x = .ok a ∧ f a = .ok r := by
  cases x with
  | error e => simp [bind, Except.bind] at h
  | ok a => exact ⟨a, rfl, by simpa [bind, Except.bind] using h⟩

namespace BlueprintParser

/-- C4: on the single-blueprint path, the entity-counts histogram counts
every entity exactly once — the values sum to the length of the entity
list — keyed by the entity's `name` (sentinel `"unknown"` when absent),
and each histogram value is the exact occurrence frequency (under Python
`==`) of its key among the entities' names. -/
theorem entity_counts_spec :
    ∀ (doc : Json) (m : SingleMeta) (bp : Json) (E names : List Json),
      extract_metadata doc = .ok (.single m) →
      pySubscript doc "blueprint" = .ok bp →
      pyGet bp "entities" (.arr []) = .ok (.arr E) →
      mapNames E = .ok names →
      m.entity_count = E.length ∧
      ((m.entity_counts.map (·.2)).sum = E.length) ∧
      (∀ p ∈ m.entity_counts, p.2 = names.countP (fun n => pyEq n p.1)) := by
  intro doc m bp E names hext hsub hent hnames
  -- the single path must have been taken
  have hsingle : extract_single doc = .ok (.single m) := by
    rw [extract_metadata] at hext
    cases hc : pyContains doc (.str "blueprint") with
    | error e => rw [hc] at hext; simp [bind, Except.bind] at hext
    | ok hasBp =>
      rw [hc] at hext
      simp only [bind, Except.bind] at hext
      cases hasBp with
      | true => simpa using hext
      | false =>
        simp only [Bool.false_eq_true, if_false] at hext
        cases hc2 : pyContains doc (.str "blueprint_book") with
        | error e => rw [hc2] at hext; simp at hext
        | ok hasBook =>
          rw [hc2] at hext
          cases hasBook with
          | false => simp at hext
          | true =>
            simp only [if_true] at hext
            exfalso
            rw [extract_book] at hext
            obtain ⟨book, _, hext⟩ := bind_ok_inv hext
            obtain ⟨nm, _, hext⟩ := bind_ok_inv hext
            obtain ⟨ds, _, hext⟩ := bind_ok_inv hext
            obtain ⟨bs, _, hext⟩ := bind_ok_inv hext
            obtain ⟨n, _, hext⟩ := bind_ok_inv hext
            simp [pure, Except.pure] at hext
  rw [extract_single] at hsingle
  obtain ⟨bp0, hbp0, hsingle⟩ := bind_ok_inv hsingle
  rw [hbp0] at hsub
  injection hsub with hsub
  subst hsub
  obtain ⟨nm, hnm, hsingle⟩ := bind_ok_inv hsingle
  obtain ⟨ds, hds, hsingle⟩ := bind_ok_inv hsingle
  obtain ⟨ent0, hent0, hsingle⟩ := bind_ok_inv hsingle
  rw [hent0] at hent
  injection hent with hent
  subst hent
  obtain ⟨ents, hents, hsingle⟩ := bind_ok_inv hsingle
  rw [show pyIter (.arr E) = .ok E from rfl] at hents
  injection hents with hents
  subst hents
  obtain ⟨counts, hcounts, hsingle⟩ := bind_ok_inv hsingle
  obtain ⟨dims, hdims, hsingle⟩ := bind_ok_inv hsingle
  obtain ⟨vint, hvint, hsingle⟩ := bind_ok_inv hsingle
  obtain ⟨ver, hver, hsingle⟩ := bind_ok_inv hsingle
  obtain ⟨n, hn, hsingle⟩ := bind_ok_inv hsingle
  rw [show pyLen (.arr E) = .ok E.length from rfl] at hn
  injection hn with hn
  subst hn
  simp only [pure, Except.pure, Except.ok.injEq, Metadata.single.injEq] at hsingle
  subst hsingle
  have hwf0 : HistWF [] := ⟨List.Pairwise.nil, by simp⟩
  obtain ⟨names', hm', hlen', hwh, hsum, hcount⟩ :=
    buildHistogram_spec E [] counts hwf0 hcounts
  rw [hm'] at hnames
  injection hnames with hnames
  subst hnames
  refine ⟨rfl, ?_, ?_⟩
  · simpa using hsum
  · intro p hp
    obtain ⟨kk, hkk⟩ := Option.isSome_iff_exists.mp (hwh.2 p hp)
    have h1 : histLookup counts p.1 = p.2 := histEntries_lookup hwh p hp
    have h2 := hcount p.1 kk hkk
    rw [h1] at h2
    simpa [histLookup] using h2

end BlueprintParser

namespace BlueprintParser

/-- Witness for C4 at a three-entity document: two entities named
`"belt"` and one unnamed entity counted under `"unknown"`. -/
theorem entity_counts_spec_witness :
    (extract_metadata (.obj [("blueprint", .obj [("entities", .arr
          [.obj [("name", .str "belt")], .obj [], .obj [("name", .str "belt")]])])])
        = .ok (.single
          { name := .str "Untitled Blueprint"
            description := .str ""
            entity_count := 3
            entity_counts := [(.str "belt", 2), (.str "unknown", 1)]
            width := 0
            height := 0
            version_major := 0
            version_minor := 0
            version_patch := 0 }) ∧
      pySubscript (.obj [("blueprint", .obj [("entities", .arr
          [.obj [("name", .str "belt")], .obj [], .obj [("name", .str "belt")]])])])
          "blueprint"
        = .ok (.obj [("entities", .arr
          [.obj [("name", .str "belt")], .obj [], .obj [("name", .str "belt")]])]) ∧
      pyGet (.obj [("entities", .arr
          [.obj [("name", .str "belt")], .obj [], .obj [("name", .str "belt")]])])
          "entities" (.arr [])
        = .ok (.arr [.obj [("name", .str "belt")], .obj [], .obj [("name", .str "belt")]]) ∧
      mapNames [.obj [("name", .str "belt")], .obj [], .obj [("name", .str "belt")]]
        = .ok [.str "belt", .str "unknown", .str "belt"]) ∧
    (SingleMeta.entity_count
        { name := .str "Untitled Blueprint"
          description := .str ""
          entity_count := 3
          entity_counts := [(.str "belt", 2), (.str "unknown", 1)]
          width := 0
          height := 0
          version_major := 0
          version_minor := 0
          version_patch := 0 }
      = ([.obj [("name", .str "belt")], .obj [], .obj [("name", .str "belt")]] : List Json).length ∧
      ((([(.str "belt", 2), (.str "unknown", 1)] : List (Json × Nat)).map (·.2)).sum
        = ([.obj [("name", .str "belt")], .obj [], .obj [("name", .str "belt")]] : List Json).length) ∧
      (∀ p ∈ ([(.str "belt", 2), (.str "unknown", 1)] : List (Json × Nat)),
        p.2 = ([.str "belt", .str "unknown", .str "belt"] : List Json).countP
          (fun n => pyEq n p.1))) :=
  ⟨⟨rfl, rfl, rfl, rfl⟩,
    entity_counts_spec
      (.obj [("blueprint", .obj [("entities", .arr
          [.obj [("name", .str "belt")], .obj [], .obj [("name", .str "belt")]])])])
      { name := .str "Untitled Blueprint"
        description := .str ""
        entity_count := 3
        entity_counts := [(.str "belt", 2), (.str "unknown", 1)]
        width := 0
        height := 0
        version_major := 0
        version_minor := 0
        version_patch := 0 }
      (.obj [("entities", .arr
          [.obj [("name", .str "belt")], .obj [], .obj [("name", .str "belt")]])])
      [.obj [("name", .str "belt")], .obj [], .obj [("name", .str "belt")]]
      [.str "belt", .str "unknown", .str "belt"]
      rfl rfl rfl rfl⟩

end BlueprintParser

theorem noSchema_bind {α β : Type} {x : Except PyExc α} {f : α → Except PyExc β}
    (hx : NoSchema x) (hf : ∀ a, NoSchema (f a)) : NoSchema (x >>= f) := by
  cases x with
  | error e =>
    simp only [bind, Except.bind]
    intro hcon
    injection hcon with hcon
    exact hx (by rw [hcon])
  | ok a =>
    simp only [bind, Except.bind]
    exact hf a

theorem pyContains_ns (c i : Json) : NoSchema (pyContains c i) := by
  cases c <;> try (cases i) <;> simp [pyContains, NoSchema]

theorem pySubscript_ns (c : Json) (k : String) : NoSchema (pySubscript c k) := by
  cases c with
  | obj kvs => cases h : kvs.lookup k <;> simp [pySubscript, h, NoSchema]
  | _ => simp [pySubscript, NoSchema]

theorem pyGet_ns (c : Json) (k : String) (d : Json) : NoSchema (pyGet c k d) := by
  cases c <;> simp [pyGet, NoSchema]

theorem pyIter_ns (c : Json) : NoSchema (pyIter c) := by
  cases c <;> simp [pyIter, NoSchema]

theorem pyLen_ns (c : Json) : NoSchema (pyLen c) := by
  cases c <;> simp [pyLen, NoSchema]

theorem pySub_ns (a b : Json) : NoSchema (pySub a b) := by
  unfold pySub
  cases jnum? a <;> cases jnum? b <;> simp [NoSchema]

theorem pyToInt_ns (a : Json) : NoSchema (pyToInt a) := by
  cases a <;> simp [pyToInt, NoSchema]

mutual

theorem pyLtB_ns : ∀ (a b : Json), NoSchema (pyLtB a b)
  | .arr a, .arr b => pyLtList_ns a b
  | .arr _, .null => by simp [pyLtB, NoSchema]
  | .arr _, .bool _ => by simp [pyLtB, NoSchema]
  | .arr _, .num _ => by simp [pyLtB, NoSchema]
  | .arr _, .str _ => by simp [pyLtB, NoSchema]
  | .arr _, .obj _ => by simp [pyLtB, NoSchema]
  | .null, b => by cases b <;> simp [pyLtB, NoSchema]
  | .bool _, b => by cases b <;> simp [pyLtB, NoSchema]
  | .num _, b => by cases b <;> simp [pyLtB, NoSchema]
  | .str _, b => by cases b <;> simp [pyLtB, NoSchema]
  | .obj _, b => by cases b <;> simp [pyLtB, NoSchema]

theorem pyLtList_ns : ∀ (l1 l2 : List Json), NoSchema (pyLtList l1 l2)
  | [], [] => by simp [pyLtList, NoSchema]
  | [], _ :: _ => by simp [pyLtList, NoSchema]
  | _ :: _, [] => by simp [pyLtList, NoSchema]
  | x :: xs, y :: ys => by
    by_cases hpe : pyEq x y = true
    · simpa [pyLtList, hpe] using pyLtList_ns xs ys
    · simpa [pyLtList, hpe] using pyLtB_ns x y

end

theorem foldlM_lt_ns (g : Json → Json → Except PyExc Bool)
    (hg : ∀ c y, NoSchema (g c y)) :
    ∀ (xs : List Json) (x : Json),
      NoSchema (xs.foldlM (fun cur y => do
        let b ← g cur y
        pure (if b then y else cur)) x) := by
  intro xs
  induction xs with
  | nil => intro x; simp [List.foldlM, NoSchema, pure, Except.pure]
  | cons y ys ih =>
    intro x
    rw [List.foldlM_cons]
    apply noSchema_bind
    · apply noSchema_bind (hg x y)
      intro b
      simp [NoSchema, pure, Except.pure]
    · intro a
      exact ih a

theorem pyMin_ns (l : List Json) : NoSchema (pyMin l) := by
  cases l with
  | nil => simp [pyMin, NoSchema]
  | cons x xs => exact foldlM_lt_ns _ (fun c y => pyLtB_ns y c) xs x

theorem pyMax_ns (l : List Json) : NoSchema (pyMax l) := by
  cases l with
  | nil => simp [pyMax, NoSchema]
  | cons x xs => exact foldlM_lt_ns _ (fun c y => pyLtB_ns c y) xs x

namespace BlueprintParser

theorem decode_version_value_ns (v : Json) : NoSchema (decode_version_value v) := by
  unfold decode_version_value
  by_cases h : pyEq v (.num 0) = true
  · simp [h, NoSchema]
  · cases v
    · simp [h, NoSchema]
    · simp [h, NoSchema]
    · rename_i q
      by_cases hd : q.den = 1 <;> simp [h, hd, NoSchema]
    · simp [h, NoSchema]
    · simp [h, NoSchema]
    · simp [h, NoSchema]

theorem collectCoord_ns (key : String) (ps : List Json) :
    NoSchema (collectCoord key ps) := by
  induction ps with
  | nil => simp [collectCoord, NoSchema]
  | cons p ps' ih =>
    rw [collectCoord]
    apply noSchema_bind (pyContains_ns p (.str key))
    intro b
    cases b with
    | false => simpa using ih
    | true =>
      simp only [if_true]
      apply noSchema_bind (pyGet_ns p key (.num 0))
      intro v
      apply noSchema_bind ih
      intro rest
      simp [NoSchema, pure, Except.pure]

theorem mapPositions_ns (es : List Json) : NoSchema (mapPositions es) := by
  induction es with
  | nil => simp [mapPositions, NoSchema]
  | cons e es' ih =>
    rw [mapPositions]
    apply noSchema_bind (pyGet_ns e "position" (.obj []))
    intro p
    apply noSchema_bind ih
    intro rest
    simp [NoSchema, pure, Except.pure]

theorem calculate_dimensions_ns (entities : Json) :
    NoSchema (calculate_dimensions entities) := by
  rw [calculate_dimensions]
  by_cases h : pyTruthy entities = false
  · simp [h, NoSchema]
  · simp only [h, if_false]
    apply noSchema_bind (pyIter_ns entities)
    intro ents
    apply noSchema_bind (mapPositions_ns ents)
    intro ps
    apply noSchema_bind (collectCoord_ns "x" ps)
    intro xs
    apply noSchema_bind (collectCoord_ns "y" ps)
    intro ys
    by_cases he : (xs.isEmpty || ys.isEmpty) = true
    · simp [he, NoSchema, pure, Except.pure]
    · simp only [he, if_false]
      apply noSchema_bind (pyMin_ns xs); intro a
      apply noSchema_bind (pyMax_ns xs); intro b
      apply noSchema_bind (pyMin_ns ys); intro c
      apply noSchema_bind (pyMax_ns ys); intro d
      apply noSchema_bind (pySub_ns b a); intro dx
      apply noSchema_bind (pyToInt_ns dx); intro w
      apply noSchema_bind (pySub_ns d c); intro dy
      apply noSchema_bind (pyToInt_ns dy); intro hgt
      simp [NoSchema, pure, Except.pure]

theorem buildHistogram_ns (acc : List (Json × Nat)) (es : List Json) :
    NoSchema (buildHistogram acc es) := by
  induction es generalizing acc with
  | nil => simp [buildHistogram, NoSchema]
  | cons e es' ih =>
    rw [buildHistogram]
    apply noSchema_bind (pyGet_ns e "name" (.str "unknown"))
    intro name
    cases hh : isHashable name with
    | true => simpa [hh] using ih _
    | false => simp [hh, NoSchema]

theorem extract_single_ns (d : Json) : NoSchema (extract_single d) := by
  rw [extract_single]
  apply noSchema_bind (pySubscript_ns d "blueprint"); intro bp
  apply noSchema_bind (pyGet_ns bp "label" (.str "Untitled Blueprint")); intro nm
  apply noSchema_bind (pyGet_ns bp "description" (.str "")); intro ds
  apply noSchema_bind (pyGet_ns bp "entities" (.arr [])); intro ent
  apply noSchema_bind (pyIter_ns ent); intro ents
  apply noSchema_bind (buildHistogram_ns [] ents); intro counts
  apply noSchema_bind (calculate_dimensions_ns ent); intro dims
  apply noSchema_bind (pyGet_ns bp "version" (.num 0)); intro vint
  apply noSchema_bind (decode_version_value_ns vint); intro ver
  apply noSchema_bind (pyLen_ns ent); intro n
  simp [NoSchema, pure, Except.pure]

theorem extract_book_ns (d : Json) : NoSchema (extract_book d) := by
  rw [extract_book]
  apply noSchema_bind (pySubscript_ns d "blueprint_book"); intro bk
  apply noSchema_bind (pyGet_ns bk "label" (.str "Untitled Blueprint Book")); intro nm
  apply noSchema_bind (pyGet_ns bk "description" (.str "")); intro ds
  apply noSchema_bind (pyGet_ns bk "blueprints" (.arr [])); intro bps
  apply noSchema_bind (pyLen_ns bps); intro n
  simp [NoSchema, pure, Except.pure]

theorem extract_single_is_single (d : Json) (r : Metadata)
    (h : extract_single d = .ok r) : ∃ s, r = .single s := by
  rw [extract_single] at h
  obtain ⟨bp, _, h⟩ := bind_ok_inv h
  obtain ⟨nm, _, h⟩ := bind_ok_inv h
  obtain ⟨ds, _, h⟩ := bind_ok_inv h
  obtain ⟨ent, _, h⟩ := bind_ok_inv h
  obtain ⟨ents, _, h⟩ := bind_ok_inv h
  obtain ⟨counts, _, h⟩ := bind_ok_inv h
  obtain ⟨dims, _, h⟩ := bind_ok_inv h
  obtain ⟨vint, _, h⟩ := bind_ok_inv h
  obtain ⟨ver, _, h⟩ := bind_ok_inv h
  obtain ⟨n, _, h⟩ := bind_ok_inv h
  simp only [pure, Except.pure, Except.ok.injEq] at h
  exact ⟨_, h.symm⟩

theorem extract_book_is_book (d : Json) (r : Metadata)
    (h : extract_book d = .ok r) : ∃ b, r = .book b := by
  rw [extract_book] at h
  obtain ⟨bk, _, h⟩ := bind_ok_inv h
  obtain ⟨nm, _, h⟩ := bind_ok_inv h
  obtain ⟨ds, _, h⟩ := bind_ok_inv h
  obtain ⟨bps, _, h⟩ := bind_ok_inv h
  obtain ⟨n, _, h⟩ := bind_ok_inv h
  simp only [pure, Except.pure, Except.ok.injEq] at h
  exact ⟨_, h.symm⟩

end BlueprintParser

namespace BlueprintParser

theorem hasKey_lookup {kvs : List (String × Json)} {k : String}
    (h : hasKey kvs k = true) : ∃ v, kvs.lookup k = some v := by
  induction kvs with
  | nil => simp [hasKey] at h
  | cons kv rest ih =>
    by_cases he : kv.1 == k
    · refine ⟨kv.2, ?_⟩
      have : k == kv.1 := by
        rw [beq_iff_eq] at he ⊢
        exact he.symm
      rw [show kv = (kv.1, kv.2) from rfl, List.lookup_cons]
      simp [this]
    · have h' : hasKey rest k = true := by
        simp only [hasKey, List.any_cons, Bool.or_eq_true] at h
        rcases h with h | h
        · exact absurd h he
        · exact h
      obtain ⟨v, hv⟩ := ih h'
      refine ⟨v, ?_⟩
      have : ¬ (k == kv.1) = true := by
        rw [beq_iff_eq] at he ⊢
        exact fun hc => he hc.symm
      rw [show kv = (kv.1, kv.2) from rfl, List.lookup_cons]
      simp only [this, Bool.false_eq_true, if_false]
      exact hv

/-- C5: classification of `extract_metadata` on a document object.
The single-blueprint path is taken whenever the `"blueprint"` key is
present (even if `"blueprint_book"` is also present): the result is then
never a book record and never the schema error, though it may be a Python
error rather than a record when the payload is malformed.  With only a
well-shaped `"blueprint_book"`, a book record is returned.  The schema
error occurs exactly when neither key is present; in particular `{}`
fails with it. -/
theorem extract_classification :
    ∀ (kvs : List (String × Json)),
      (extract_metadata (.obj kvs) = .error .schemaError ↔
        hasKey kvs "blueprint" = false ∧ hasKey kvs "blueprint_book" = false) ∧
      (hasKey kvs "blueprint" = true →
        ∀ b, extract_metadata (.obj kvs) ≠ .ok (.book b)) ∧
      (hasKey kvs "blueprint" = false →
        ∀ s, extract_metadata (.obj kvs) ≠ .ok (.single s)) ∧
      (hasKey kvs "blueprint" = false → hasKey kvs "blueprint_book" = true →
        bookShaped kvs = true →
        ∃ bm, extract_metadata (.obj kvs) = .ok (.book bm)) ∧
      extract_metadata (.obj []) = .error .schemaError := by
  intro kvs
  have hc : pyContains (.obj kvs) (.str "blueprint")
      = .ok (hasKey kvs "blueprint") := rfl
  have hc2 : pyContains (.obj kvs) (.str "blueprint_book")
      = .ok (hasKey kvs "blueprint_book") := rfl
  by_cases hbp : hasKey kvs "blueprint" = true
  · have hext : extract_metadata (.obj kvs) = extract_single (.obj kvs) := by
      rw [extract_metadata, hc]
      simp [bind, Except.bind, hbp]
    refine ⟨⟨?_, ?_⟩, ?_, ?_, ?_, rfl⟩
    · intro h
      rw [hext] at h
      exact absurd h (extract_single_ns _)
    · rintro ⟨h1, _⟩
      rw [hbp] at h1
      cases h1
    · intro _ b hcon
      rw [hext] at hcon
      obtain ⟨s, hs⟩ := extract_single_is_single _ _ hcon
      cases hs
    · intro hfalse
      rw [hbp] at hfalse
      cases hfalse
    · intro hfalse
      rw [hbp] at hfalse
      cases hfalse
  · have hbp' : hasKey kvs "blueprint" = false := by
      cases h : hasKey kvs "blueprint"
      · rfl
      · exact absurd h hbp
    by_cases hbk : hasKey kvs "blueprint_book" = true
    · have hext : extract_metadata (.obj kvs) = extract_book (.obj kvs) := by
        rw [extract_metadata, hc]
        simp only [bind, Except.bind, hbp', Bool.false_eq_true, if_false]
        rw [hc2]
        simp [bind, Except.bind, hbk]
      refine ⟨⟨?_, ?_⟩, ?_, ?_, ?_, rfl⟩
      · intro h
        rw [hext] at h
        exact absurd h (extract_book_ns _)
      · rintro ⟨_, h2⟩
        rw [hbk] at h2
        cases h2
      · intro h1
        rw [hbp'] at h1
        cases h1
      · intro _ s hcon
        rw [hext] at hcon
        obtain ⟨b, hb⟩ := extract_book_is_book _ _ hcon
        cases hb
      · intro _ _ hshape
        obtain ⟨v, hv⟩ := hasKey_lookup hbk
        rw [hext]
        unfold bookShaped at hshape
        rw [hv] at hshape
        cases v with
        | obj bkvs =>
          dsimp only at hshape
          have hsub : pySubscript (.obj kvs) "blueprint_book" = .ok (.obj bkvs) := by
            simp [pySubscript, hv]
          cases hl : bkvs.lookup "blueprints" with
          | none =>
            refine ⟨⟨(bkvs.lookup "label").getD (.str "Untitled Blueprint Book"),
              (bkvs.lookup "description").getD (.str ""), 0⟩, ?_⟩
            rw [extract_book, hsub]
            simp [bind, Except.bind, pyGet, hl, pyLen, pure, Except.pure]
          | some bv =>
            rw [hl] at hshape
            cases bv with
            | arr l =>
              refine ⟨⟨(bkvs.lookup "label").getD (.str "Untitled Blueprint Book"),
                (bkvs.lookup "description").getD (.str ""), l.length⟩, ?_⟩
              rw [extract_book, hsub]
              simp [bind, Except.bind, pyGet, hl, pyLen, pure, Except.pure]
            | str s =>
              refine ⟨⟨(bkvs.lookup "label").getD (.str "Untitled Blueprint Book"),
                (bkvs.lookup "description").getD (.str ""), s.length⟩, ?_⟩
              rw [extract_book, hsub]
              simp [bind, Except.bind, pyGet, hl, pyLen, pure, Except.pure]
            | obj o =>
              refine ⟨⟨(bkvs.lookup "label").getD (.str "Untitled Blueprint Book"),
                (bkvs.lookup "description").getD (.str ""), o.length⟩, ?_⟩
              rw [extract_book, hsub]
              simp [bind, Except.bind, pyGet, hl, pyLen, pure, Except.pure]
            | null => simp [sizedValue] at hshape
            | bool b => simp [sizedValue] at hshape
            | num q => simp [sizedValue] at hshape
        | null => simp at hshape
        | bool b => simp at hshape
        | num q => simp at hshape
        | str s => simp at hshape
        | arr l => simp at hshape
    · have hbk' : hasKey kvs "blueprint_book" = false := by
        cases h : hasKey kvs "blueprint_book"
        · rfl
        · exact absurd h hbk
      have hext : extract_metadata (.obj kvs) = .error .schemaError := by
        rw [extract_metadata, hc]
        simp only [bind, Except.bind, hbp', Bool.false_eq_true, if_false]
        rw [hc2]
        simp [bind, Except.bind, hbk']
      refine ⟨⟨fun _ => ⟨hbp', hbk'⟩, fun _ => hext⟩, ?_, ?_, ?_, rfl⟩
      · intro h1
        rw [h1] at hbp'
        cases hbp'
      · intro _ s
        rw [hext]
        simp
      · intro _ h2
        rw [h2] at hbk'
        cases hbk'

end BlueprintParser

namespace BlueprintParser

/-- C5 counterexample: the claim promises a single-blueprint record
whenever the `"blueprint"` key is present, but `{"blueprint": null}` has
the key and `extract_metadata` raises an `AttributeError`
(`None` has no `.get`) instead of returning any record. -/
theorem extract_classification_counterexample :
    hasKey [("blueprint", Json.null)] "blueprint" = true ∧
    extract_metadata (.obj [("blueprint", .null)]) = .error .attributeError ∧
    ∀ s : SingleMeta, extract_metadata (.obj [("blueprint", .null)]) ≠ .ok (.single s) := by
  refine ⟨rfl, rfl, fun s h => ?_⟩
  rw [show extract_metadata (.obj [("blueprint", .null)]) = .error .attributeError
    from rfl] at h
  cases h

/-- Witness for C5: a well-shaped book-only document takes the book path
and returns a book record. -/
theorem extract_classification_witness :
    (hasKey [("blueprint_book", Json.obj [("label", Json.str "X"),
        ("blueprints", Json.arr [.null, .null, .null])])] "blueprint" = false ∧
      hasKey [("blueprint_book", Json.obj [("label", Json.str "X"),
        ("blueprints", Json.arr [.null, .null, .null])])] "blueprint_book" = true ∧
      bookShaped [("blueprint_book", Json.obj [("label", Json.str "X"),
        ("blueprints", Json.arr [.null, .null, .null])])] = true) ∧
    ∃ bm, extract_metadata (.obj [("blueprint_book", Json.obj [("label", Json.str "X"),
        ("blueprints", Json.arr [.null, .null, .null])])]) = .ok (.book bm) :=
  ⟨⟨rfl, rfl, rfl⟩,
    (extract_classification [("blueprint_book", Json.obj [("label", Json.str "X"),
        ("blueprints", Json.arr [.null, .null, .null])])]).2.2.2.1 rfl rfl rfl⟩

end BlueprintParser

/-! ### Character arithmetic helpers -/

theorem toNat_ofNat_valid (n : Nat) (h : Nat.isValidChar n) : (Char.ofNat n).toNat = n := by
  simp only [Char.ofNat, h, dite_true, dif_pos]
  rcases h with h | ⟨h1, h2⟩
  · rfl
  · rfl

theorem char_toNat_valid (c : Char) : Nat.isValidChar c.toNat := by
  have := c.valid
  unfold UInt32.isValidChar at this
  exact this

theorem char_toNat_lt (c : Char) : c.toNat < 1114112 := by
  rcases char_toNat_valid c with h | h <;> omega

theorem char_not_surrogate (c : Char) : ¬ (55296 ≤ c.toNat ∧ c.toNat < 57344) := by
  rcases char_toNat_valid c with h | ⟨h1, h2⟩ <;> omega

theorem char_eq_of_toNat (a b : Char) (h : a.toNat = b.toNat) : a = b := by
  have ha := Char.ofNat_toNat a
  rw [← ha, h, Char.ofNat_toNat]

/-! ### base64 -/

theorem b64Val_alpha : ∀ v, v < 64 → b64CharVal (b64AlphaChar v) = some v := by decide

theorem b64Alpha_ne_eq : ∀ v, v < 64 → b64AlphaChar v ≠ '=' := by decide

theorem a2b_b64encode (bs : List Nat) (h : ∀ b ∈ bs, b < 256) :
    a2b (b64encode bs) 0 0 0 = .ok bs := by
  match bs with
  | [] => rfl
  | [a] =>
    have ha : a < 256 := h a (by simp)
    have h1 : a / 4 < 64 := by omega
    have h2 : a % 4 * 16 < 64 := by omega
    simp only [b64encode, a2b, if_neg (b64Alpha_ne_eq _ h1), b64Val_alpha _ h1,
      if_neg (b64Alpha_ne_eq _ h2), b64Val_alpha _ h2]
    norm_num
    omega
  | [a, b] =>
    have ha : a < 256 := h a (by simp)
    have hb : b < 256 := h b (by simp)
    have h1 : a / 4 < 64 := by omega
    have h2 : a % 4 * 16 + b / 16 < 64 := by omega
    have h3 : b % 16 * 4 < 64 := by omega
    simp only [b64encode, a2b, if_neg (b64Alpha_ne_eq _ h1), b64Val_alpha _ h1,
      if_neg (b64Alpha_ne_eq _ h2), b64Val_alpha _ h2,
      if_neg (b64Alpha_ne_eq _ h3), b64Val_alpha _ h3]
    norm_num
    constructor
    · omega
    · omega
  | a :: b :: c :: rest =>
    have ha : a < 256 := h a (by simp)
    have hb : b < 256 := h b (by simp)
    have hc : c < 256 := h c (by simp)
    have IH : a2b (b64encode rest) 0 0 0 = .ok rest :=
      a2b_b64encode rest (fun x hx => h x (by simp [hx]))
    have h1 : a / 4 < 64 := by omega
    have h2 : a % 4 * 16 + b / 16 < 64 := by omega
    have h3 : b % 16 * 4 + c / 64 < 64 := by omega
    have h4 : c % 64 < 64 := by omega
    simp only [b64encode, a2b, if_neg (b64Alpha_ne_eq _ h1), b64Val_alpha _ h1,
      if_neg (b64Alpha_ne_eq _ h2), b64Val_alpha _ h2,
      if_neg (b64Alpha_ne_eq _ h3), b64Val_alpha _ h3,
      if_neg (b64Alpha_ne_eq _ h4), b64Val_alpha _ h4, IH]
    norm_num
    refine ⟨by omega, by omega, by omega⟩
termination_by bs.length

theorem a2b_skip_junk (c : Char) (hc : b64CharVal c = none) (hne : c ≠ '=')
    (s : List Char) (qp lc pads : Nat) : a2b (c :: s) qp lc pads = a2b s qp lc pads := by
  simp only [a2b, if_neg hne, hc]

theorem a2b_insert_junk (c : Char) (hc : b64CharVal c = none) (hne : c ≠ '=')
    (pre : List Char) : ∀ suf qp lc pads,
    a2b (pre ++ c :: suf) qp lc pads = a2b (pre ++ suf) qp lc pads := by
  induction pre with
  | nil => intro suf qp lc pads; exact a2b_skip_junk c hc hne suf qp lc pads
  | cons p pre IH =>
    intro suf qp lc pads
    by_cases hp : p = '='
    · subst hp
      simp only [List.cons_append, a2b, if_true]
      by_cases hcond : 2 ≤ qp ∧ qp + pads + 1 = 4
      · rw [if_pos hcond, if_pos hcond]
      · rw [if_neg hcond, if_neg hcond]
        exact IH suf qp lc (pads + 1)
    · simp only [List.cons_append, a2b]
      rw [if_neg hp, if_neg hp]
      cases hv : b64CharVal p with
      | none => simp only [hv]; exact IH suf qp lc pads
      | some d =>
        simp only [hv]
        by_cases hq : qp = 3
        · rw [if_pos hq, if_pos hq]
          simp only [List.append_eq]
          rw [IH suf 0 0 0]
        · rw [if_neg hq, if_neg hq]
          exact IH suf (qp + 1) (lc * 64 + d) 0

/-! ### zlib (stored blocks) -/

theorem adler_fold_bound (bs : List Nat) : ∀ p : Nat × Nat, p.1 < 65521 → p.2 < 65521 →
    (bs.foldl adlerStep p).1 < 65521 ∧ (bs.foldl adlerStep p).2 < 65521 := by
  induction bs with
  | nil => intro p h1 h2; exact ⟨h1, h2⟩
  | cons b bs IH =>
    intro p h1 h2
    simp only [List.foldl_cons]
    exact IH (adlerStep p b) (Nat.mod_lt _ (by norm_num)) (Nat.mod_lt _ (by norm_num))

theorem adler32_lt (bs : List Nat) : adler32 bs < 4294967296 := by
  have h := adler_fold_bound bs (1, 0) (by norm_num) (by norm_num)
  simp only [adler32]
  omega

theorem storedBlocks_length_ge : ∀ fuel bs, bs.length < fuel →
    bs.length ≤ (storedBlocks fuel bs).length := by
  intro fuel
  induction fuel with
  | zero => intro bs h; omega
  | succ g IH =>
    intro bs h
    by_cases hle : bs.length ≤ 65535
    · simp only [storedBlocks, if_pos hle, List.length_cons]
      omega
    · have hd : (bs.drop 65535).length < g := by
        simp only [List.length_drop]; omega
      have := IH (bs.drop 65535) hd
      simp only [storedBlocks, if_neg hle, List.length_cons, List.length_append,
        List.length_take, List.length_drop] at *
      omega

theorem inflate_stored : ∀ f1 bs tail f2, bs.length < f1 → bs.length ≤ 65535 * f2 → 0 < f2 →
    inflateBlocks f2 (storedBlocks f1 bs ++ tail) = .ok (bs, tail) := by
  intro f1
  induction f1 with
  | zero => intro bs tail f2 h; omega
  | succ g IH =>
    intro bs tail f2 h1 h2 h3
    obtain ⟨k, rfl⟩ : ∃ k, f2 = k + 1 := ⟨f2 - 1, by omega⟩
    by_cases hle : bs.length ≤ 65535
    · simp only [storedBlocks, if_pos hle, List.cons_append, inflateBlocks, if_true]
      have e2 : (65535 - bs.length) % 256 + 256 * ((65535 - bs.length) / 256) =
          65535 - (bs.length % 256 + 256 * (bs.length / 256)) := by omega
      rw [if_pos e2]
      have e3 : ¬ (bs ++ tail).length < bs.length % 256 + 256 * (bs.length / 256) := by
        simp only [List.length_append]; omega
      rw [if_neg e3]
      have e5 : bs.length % 256 + 256 * (bs.length / 256) = bs.length := by omega
      rw [e5, List.take_left, List.drop_left]
    · simp only [storedBlocks, if_neg hle, List.cons_append, List.append_assoc, inflateBlocks,
        if_true, if_false]
      have htk : (bs.take 65535).length = 65535 := by
        simp only [List.length_take]; omega
      have e3 : ¬ (bs.take 65535 ++ (storedBlocks g (bs.drop 65535) ++ tail)).length <
          255 + 256 * 255 := by
        simp only [List.length_append, htk]; omega
      rw [if_neg e3]
      have e4 : ¬ (0 : Nat) % 2 = 1 := by norm_num
      rw [if_neg e4]
      have e5 : (255 : Nat) + 256 * 255 = 65535 := by norm_num
      rw [e5, List.drop_left' htk, List.take_left' htk]
      have hrec : inflateBlocks k (storedBlocks g (bs.drop 65535) ++ tail) =
          .ok (bs.drop 65535, tail) := by
        apply IH
        · simp only [List.length_drop]; omega
        · simp only [List.length_drop]; omega
        · omega
      rw [hrec]
      simp only [List.take_append_drop]

theorem zlib_roundtrip (bs : List Nat) : zlibDecompress (zlibCompress bs) = .ok bs := by
  have hhdr : (120 : Nat) % 16 = 8 ∧ (120 : Nat) / 16 ≤ 7 ∧ (120 * 256 + 1) % 31 = 0 ∧
      (1 : Nat) / 32 % 2 = 0 := by norm_num
  simp only [zlibCompress, zlibDecompress, if_pos hhdr]
  have hlen : bs.length ≤ 65535 * ((storedBlocks (bs.length + 1) bs ++
      [adler32 bs / 16777216, adler32 bs / 65536 % 256, adler32 bs / 256 % 256,
        adler32 bs % 256]).length + 1) := by
    have := storedBlocks_length_ge (bs.length + 1) bs (by omega)
    simp only [List.length_append]
    nlinarith
  rw [inflate_stored (bs.length + 1) bs _ _ (by omega) hlen (by omega)]
  have had := adler32_lt bs
  have e : adler32 bs / 16777216 * 16777216 + adler32 bs / 65536 % 256 * 65536 +
      adler32 bs / 256 % 256 * 256 + adler32 bs % 256 = adler32 bs := by omega
  simp [e]

/-! ### UTF-8 -/

theorem utf8_roundtrip : ∀ s : List Char, ∀ fuel, s.length < fuel →
    utf8Decode fuel (utf8Encode s) = some s := by
  intro s
  induction s with
  | nil =>
    intro fuel h
    obtain ⟨f, rfl⟩ : ∃ f, fuel = f + 1 := ⟨fuel - 1, by omega⟩
    rfl
  | cons c cs IH =>
    intro fuel h
    obtain ⟨f, rfl⟩ : ∃ f, fuel = f + 1 := ⟨fuel - 1, by omega⟩
    have hcs : utf8Decode f (utf8Encode cs) = some cs := by
      apply IH
      simp only [List.length_cons] at h
      omega
    have hvtop := char_toNat_lt c
    by_cases h1 : c.toNat < 128
    · simp only [utf8Encode, utf8EncodeChar, if_pos h1, List.cons_append, List.nil_append,
        utf8Decode, hcs, Char.ofNat_toNat]
      rfl
    · by_cases h2 : c.toNat < 2048
      · have hb : ¬ (192 + c.toNat / 64 < 128) := by omega
        have hr : 194 ≤ 192 + c.toNat / 64 ∧ 192 + c.toNat / 64 < 224 := by omega
        have hc1 : isCont (128 + c.toNat % 64) = true := by
          simp only [isCont, Bool.and_eq_true, decide_eq_true_eq]; omega
        simp only [utf8Encode, utf8EncodeChar, if_neg h1, if_pos h2, List.cons_append,
          List.nil_append, utf8Decode, if_neg hb, if_pos hr, hc1, if_true, hcs]
        have hv : (192 + c.toNat / 64 - 192) * 64 + (128 + c.toNat % 64 - 128) = c.toNat := by
          omega
        rw [hv, Char.ofNat_toNat]
        rfl
      · by_cases h3 : c.toNat < 65536
        · have hb : ¬ (224 + c.toNat / 4096 < 128) := by omega
          have hb2 : ¬ (194 ≤ 224 + c.toNat / 4096 ∧ 224 + c.toNat / 4096 < 224) := by omega
          have hr : 224 ≤ 224 + c.toNat / 4096 ∧ 224 + c.toNat / 4096 < 240 := by omega
          have hc1 : isCont (128 + c.toNat / 64 % 64) = true := by
            simp only [isCont, Bool.and_eq_true, decide_eq_true_eq]; omega
          have hc2 : isCont (128 + c.toNat % 64) = true := by
            simp only [isCont, Bool.and_eq_true, decide_eq_true_eq]; omega
          have hv : (224 + c.toNat / 4096 - 224) * 4096 + (128 + c.toNat / 64 % 64 - 128) * 64 +
              (128 + c.toNat % 64 - 128) = c.toNat := by omega
          have hok : 2048 ≤ c.toNat ∧ ¬ (55296 ≤ c.toNat ∧ c.toNat < 57344) :=
            ⟨by omega, char_not_surrogate c⟩
          simp only [utf8Encode, utf8EncodeChar, if_neg h1, if_neg h2, if_pos h3,
            List.cons_append, List.nil_append, utf8Decode, if_neg hb, if_neg hb2, if_pos hr,
            hc1, hc2, Bool.and_self, if_true, hv, if_pos hok, hcs, Char.ofNat_toNat]
          rfl
        · have hb : ¬ (240 + c.toNat / 262144 < 128) := by omega
          have hb2 : ¬ (194 ≤ 240 + c.toNat / 262144 ∧ 240 + c.toNat / 262144 < 224) := by
            omega
          have hb3 : ¬ (224 ≤ 240 + c.toNat / 262144 ∧ 240 + c.toNat / 262144 < 240) := by
            omega
          have hr : 240 ≤ 240 + c.toNat / 262144 ∧ 240 + c.toNat / 262144 < 245 := by omega
          have hc1 : isCont (128 + c.toNat / 4096 % 64) = true := by
            simp only [isCont, Bool.and_eq_true, decide_eq_true_eq]; omega
          have hc2 : isCont (128 + c.toNat / 64 % 64) = true := by
            simp only [isCont, Bool.and_eq_true, decide_eq_true_eq]; omega
          have hc3 : isCont (128 + c.toNat % 64) = true := by
            simp only [isCont, Bool.and_eq_true, decide_eq_true_eq]; omega
          have hv : (240 + c.toNat / 262144 - 240) * 262144 +
              (128 + c.toNat / 4096 % 64 - 128) * 4096 +
              (128 + c.toNat / 64 % 64 - 128) * 64 + (128 + c.toNat % 64 - 128) = c.toNat := by
            omega
          have hok : 65536 ≤ c.toNat ∧ c.toNat ≤ 1114111 := ⟨by omega, by omega⟩
          simp only [utf8Encode, utf8EncodeChar, if_neg h1, if_neg h2, if_neg h3,
            List.cons_append, List.nil_append, utf8Decode, if_neg hb, if_neg hb2, if_neg hb3,
            if_pos hr, hc1, hc2, hc3, Bool.and_self, if_true, hv, if_pos hok, hcs,
            Char.ofNat_toNat]
          rfl

/-! ### Byte ranges along the encoding pipeline -/

theorem utf8Encode_lt (s : List Char) : ∀ b ∈ utf8Encode s, b < 256 := by
  induction s with
  | nil => intro b hb; simp [utf8Encode] at hb
  | cons c cs IH =>
    intro b hb
    have hvtop := char_toNat_lt c
    simp only [utf8Encode, List.mem_append] at hb
    rcases hb with hb | hb
    · simp only [utf8EncodeChar] at hb
      split at hb <;> try (split at hb) <;> try (split at hb)
      all_goals simp_all [List.mem_cons]
      all_goals omega
    · exact IH b hb

theorem storedBlocks_lt : ∀ fuel bs, (∀ b ∈ bs, b < 256) →
    ∀ b ∈ storedBlocks fuel bs, b < 256 := by
  intro fuel
  induction fuel with
  | zero => intro bs h b hb; simp [storedBlocks] at hb
  | succ g IH =>
    intro bs h b hb
    by_cases hle : bs.length ≤ 65535
    · simp only [storedBlocks, if_pos hle, List.mem_cons] at hb
      rcases hb with rfl | rfl | rfl | rfl | rfl | hb
      · omega
      · omega
      · omega
      · omega
      · omega
      · exact h b hb
    · simp only [storedBlocks, if_neg hle, List.mem_cons, List.mem_append] at hb
      rcases hb with rfl | rfl | rfl | rfl | rfl | hb | hb
      · omega
      · omega
      · omega
      · omega
      · omega
      · exact h b (List.mem_of_mem_take hb)
      · exact IH (bs.drop 65535) (fun x hx => h x (List.mem_of_mem_drop hx)) b hb

theorem zlibCompress_lt (bs : List Nat) (h : ∀ b ∈ bs, b < 256) :
    ∀ b ∈ zlibCompress bs, b < 256 := by
  intro b hb
  have had := adler32_lt bs
  simp only [zlibCompress, List.mem_cons, List.mem_append] at hb
  rcases hb with rfl | rfl | hb | hb
  · omega
  · omega
  · exact storedBlocks_lt _ bs h b hb
  · rcases hb with rfl | rfl | rfl | rfl | hb
    · omega
    · omega
    · omega
    · omega
    · simp at hb

theorem b64Alpha_ascii : ∀ v, v < 64 → (b64AlphaChar v).toNat < 128 := by decide

theorem b64encode_ascii (bs : List Nat) (h : ∀ b ∈ bs, b < 256) :
    ∀ c ∈ b64encode bs, c.toNat < 128 := by
  match bs with
  | [] => intro c hc; simp [b64encode] at hc
  | [a] =>
    have ha : a < 256 := h a (by simp)
    intro c hc
    simp only [b64encode, List.mem_cons] at hc
    rcases hc with rfl | rfl | rfl | rfl | hc
    · exact b64Alpha_ascii _ (by omega)
    · exact b64Alpha_ascii _ (by omega)
    · decide
    · decide
    · simp at hc
  | [a, b] =>
    have ha : a < 256 := h a (by simp)
    have hb : b < 256 := h b (by simp)
    intro c hc
    simp only [b64encode, List.mem_cons] at hc
    rcases hc with rfl | rfl | rfl | rfl | hc
    · exact b64Alpha_ascii _ (by omega)
    · exact b64Alpha_ascii _ (by omega)
    · exact b64Alpha_ascii _ (by omega)
    · decide
    · simp at hc
  | a :: b :: d :: rest =>
    have ha : a < 256 := h a (by simp)
    have hb : b < 256 := h b (by simp)
    have hd : d < 256 := h d (by simp)
    intro c hc
    simp only [b64encode, List.mem_cons] at hc
    rcases hc with rfl | rfl | rfl | rfl | hc
    · exact b64Alpha_ascii _ (by omega)
    · exact b64Alpha_ascii _ (by omega)
    · exact b64Alpha_ascii _ (by omega)
    · exact b64Alpha_ascii _ (by omega)
    · exact b64encode_ascii rest (fun x hx => h x (by simp [hx])) c hc
termination_by bs.length

/-! ### Scanning and decimal-digit printing -/

theorem takeWhile_append_all (p : Char → Bool) (l r : List Char)
    (hl : ∀ c ∈ l, p c = true) (hr : ∀ c, r.head? = some c → p c = false) :
    (l ++ r).takeWhile p = l ∧ (l ++ r).dropWhile p = r := by
  induction l with
  | nil =>
    simp only [List.nil_append]
    cases r with
    | nil => simp [List.takeWhile, List.dropWhile]
    | cons c r' =>
      have := hr c rfl
      simp [List.takeWhile_cons, List.dropWhile_cons, this]
  | cons c l IH =>
    have hc := hl c (by simp)
    have ⟨h1, h2⟩ := IH (fun x hx => hl x (by simp [hx]))
    simp [List.takeWhile_cons, List.dropWhile_cons, hc, h1, h2]

theorem skipWs_not_ws (s : List Char) (h : ∀ c, s.head? = some c → isWsChar c = false) :
    skipWs s = s := by
  cases s with
  | nil => rfl
  | cons c r => simp [skipWs, List.dropWhile_cons, h c rfl]

theorem skipWs_space (s : List Char) : skipWs (' ' :: s) = skipWs s := by
  simp [skipWs, List.dropWhile_cons, isWsChar]

theorem digit_char_toNat (m : Nat) : (Char.ofNat (48 + m % 10)).toNat = 48 + m % 10 :=
  toNat_ofNat_valid _ (Or.inl (by omega))

theorem digit_char_isDigit (m : Nat) : isDigitCh (Char.ofNat (48 + m % 10)) = true := by
  simp only [isDigitCh, digit_char_toNat, Bool.and_eq_true, decide_eq_true_eq]
  omega

theorem natToCharsAux_spec : ∀ fuel n acc, n < fuel →
    ∃ ds, natToCharsAux fuel n acc = ds ++ acc ∧ ds ≠ [] ∧
      (∀ c ∈ ds, isDigitCh c = true) ∧
      (∀ a : Nat, ds.foldl (fun a c => a * 10 + (c.toNat - 48)) a = a * 10 ^ ds.length + n) ∧
      (1 ≤ n → ∀ c, ds.head? = some c → c ≠ '0') := by
  intro fuel
  induction fuel with
  | zero => intro n acc h; omega
  | succ g IH =>
    intro n acc h
    by_cases hn : n < 10
    · refine ⟨[Char.ofNat (48 + n % 10)], ?_, by simp, ?_, ?_, ?_⟩
      · simp [natToCharsAux, if_pos hn]
      · intro c hc
        simp only [List.mem_singleton] at hc
        subst hc
        exact digit_char_isDigit n
      · intro a
        simp only [List.foldl_cons, List.foldl_nil, List.length_singleton, pow_one,
          digit_char_toNat]
        omega
      · intro h1 c hc
        simp only [List.head?_cons, Option.some_inj] at hc
        subst hc
        intro hcontra
        have : (Char.ofNat (48 + n % 10)).toNat = ('0' : Char).toNat := by rw [hcontra]
        rw [digit_char_toNat] at this
        have : n % 10 = 0 := by
          have h0 : ('0' : Char).toNat = 48 := by decide
          omega
        omega
    · have hd : n / 10 < g := by omega
      obtain ⟨ds, heq, hne, hdig, hfold, hhead⟩ := IH (n / 10) (Char.ofNat (48 + n % 10) :: acc) hd
      refine ⟨ds ++ [Char.ofNat (48 + n % 10)], ?_, by simp, ?_, ?_, ?_⟩
      · rw [natToCharsAux, if_neg hn, heq]
        simp
      · intro c hc
        simp only [List.mem_append, List.mem_singleton] at hc
        rcases hc with hc | rfl
        · exact hdig c hc
        · exact digit_char_isDigit n
      · intro a
        rw [List.foldl_append, hfold a]
        simp only [List.foldl_cons, List.foldl_nil, List.length_append, List.length_singleton,
          digit_char_toNat]
        have hp : 10 ^ (ds.length + 1) = 10 ^ ds.length * 10 := by ring
        rw [hp]
        have h10 : n / 10 * 10 + n % 10 = n := by omega
        ring_nf
        omega
      · intro _ c hc
        obtain ⟨d, tl, rfl⟩ : ∃ d tl, ds = d :: tl := by
          cases ds with
          | nil => exact absurd rfl hne
          | cons d tl => exact ⟨d, tl, rfl⟩
        simp only [List.cons_append, List.head?_cons, Option.some_inj] at hc
        subst hc
        exact hhead (by omega) _ rfl

theorem natToChars_spec (n : Nat) :
    ∃ ds, natToChars n = ds ∧ ds ≠ [] ∧ (∀ c ∈ ds, isDigitCh c = true) ∧
      digitsVal ds = n ∧ (1 ≤ n → ∀ c, ds.head? = some c → c ≠ '0') := by
  obtain ⟨ds, heq, hne, hdig, hfold, hhead⟩ := natToCharsAux_spec (n + 1) n [] (by omega)
  refine ⟨ds, ?_, hne, hdig, ?_, hhead⟩
  · rw [natToChars, heq, List.append_nil]
  · have := hfold 0
    simp only [Nat.zero_mul, Nat.zero_add] at this
    exact this

theorem natPadChars_spec : ∀ w m, (natPadChars w m).length = w ∧
    (∀ c ∈ natPadChars w m, isDigitCh c = true) ∧
    (∀ a : Nat, (natPadChars w m).foldl (fun a c => a * 10 + (c.toNat - 48)) a =
      a * 10 ^ w + m % 10 ^ w) := by
  intro w
  induction w with
  | zero => intro m; refine ⟨rfl, by simp [natPadChars], ?_⟩; intro a; simp [natPadChars, Nat.mod_one]
  | succ v IH =>
    intro m
    obtain ⟨hlen, hdig, hfold⟩ := IH (m / 10)
    refine ⟨?_, ?_, ?_⟩
    · simp [natPadChars, hlen]
    · intro c hc
      simp only [natPadChars, List.mem_append, List.mem_singleton] at hc
      rcases hc with hc | rfl
      · exact hdig c hc
      · exact digit_char_isDigit m
    · intro a
      simp only [natPadChars, List.foldl_append, hfold a, List.foldl_cons, List.foldl_nil,
        digit_char_toNat]
      have hmod : m % 10 ^ (v + 1) = m % 10 + 10 * (m / 10 % 10 ^ v) := by
        rw [pow_succ']
        exact Nat.mod_mul
      have hpow : (10 : Nat) ^ (v + 1) = 10 ^ v * 10 := by ring
      rw [hmod, hpow]
      ring_nf
      omega

theorem spanDigits_append (ds rest : List Char) (hds : ∀ c ∈ ds, isDigitCh c = true)
    (hr : ∀ c, rest.head? = some c → isDigitCh c = false) :
    spanDigits (ds ++ rest) = (ds, rest) := by
  obtain ⟨h1, h2⟩ := takeWhile_append_all isDigitCh ds rest hds hr
  simp [spanDigits, h1, h2]

/-! ### Number parsing -/

theorem digit_ne_chars (c : Char) (h : isDigitCh c = true) :
    c ≠ '-' ∧ c ≠ '.' ∧ c ≠ 'e' ∧ c ≠ 'E' ∧ c ≠ '"' ∧ c ≠ '[' ∧ c ≠ '\x7b' ∧ c ≠ 't' ∧
      c ≠ 'f' ∧ c ≠ 'n' := by
  simp only [isDigitCh, Bool.and_eq_true, decide_eq_true_eq] at h
  refine ⟨?_, ?_, ?_, ?_, ?_, ?_, ?_, ?_, ?_, ?_⟩ <;>
    · intro hc; subst hc; revert h; decide

theorem isNegSign_false (c : Char) (r : List Char) (h : c ≠ '-') :
    isNegSign (c :: r) = false := by
  unfold isNegSign
  split
  · rename_i heq
    injection heq with h1 h2
    exact absurd h1 h
  · rfl

theorem parseFracPart_none (s : List Char) (h : ∀ x, s.head? = some x → x ≠ '.') :
    parseFracPart s = ([], s) := by
  unfold parseFracPart
  split
  · rename_i d tail
    exact absurd rfl (h '.' rfl)
  · rfl

theorem parseFracPart_dot (fs rest : List Char) (hne : fs ≠ [])
    (hdig : ∀ c ∈ fs, isDigitCh c = true)
    (hr : ∀ x, rest.head? = some x → isDigitCh x = false) :
    parseFracPart ('.' :: (fs ++ rest)) = (fs, rest) := by
  obtain ⟨d, ftl, rfl⟩ : ∃ d ftl, fs = d :: ftl := by
    cases fs with
    | nil => exact absurd rfl hne
    | cons d ftl => exact ⟨d, ftl, rfl⟩
  have hd : isDigitCh d = true := hdig d (by simp)
  simp only [List.cons_append, parseFracPart, if_pos hd, List.tail_cons]
  have := spanDigits_append (d :: ftl) rest hdig hr
  simpa using this

theorem parseExpPart_none (s : List Char) (h : ∀ x, s.head? = some x → x ≠ 'e' ∧ x ≠ 'E') :
    parseExpPart s = (none, s) := by
  cases s with
  | nil => rfl
  | cons y r =>
    have hy := h y rfl
    simp only [parseExpPart]
    rw [if_neg (not_or.mpr ⟨hy.1, hy.2⟩)]

theorem parseNumBody_int (sgn : Bool) (ds rest : List Char) (hne : ds ≠ [])
    (hdig : ∀ c ∈ ds, isDigitCh c = true)
    (hzero : ∀ tl, ds = '0' :: tl → tl = [])
    (hrest : numDelim rest) :
    parseNumBody sgn (ds ++ rest) =
      some (.num (if sgn then qMul (mkRat (-1) 1) (mkRat (digitsVal ds) 1)
        else mkRat (digitsVal ds) 1), rest) := by
  obtain ⟨c, tl, rfl⟩ : ∃ c tl, ds = c :: tl := by
    cases ds with
    | nil => exact absurd rfl hne
    | cons c tl => exact ⟨c, tl, rfl⟩
  have hc : isDigitCh c = true := hdig c (by simp)
  have hrn : ∀ x, rest.head? = some x → isDigitCh x = false := by
    intro x hx
    cases rest with
    | nil => simp at hx
    | cons y r' =>
      simp only [List.head?_cons, Option.some_inj] at hx
      subst hx
      simpa using hrest.1
  have hrdot : ∀ x, rest.head? = some x → x ≠ '.' := by
    intro x hx
    cases rest with
    | nil => simp at hx
    | cons y r' =>
      simp only [List.head?_cons, Option.some_inj] at hx
      subst hx
      exact hrest.2.1
  have hrexp : ∀ x, rest.head? = some x → x ≠ 'e' ∧ x ≠ 'E' := by
    intro x hx
    cases rest with
    | nil => simp at hx
    | cons y r' =>
      simp only [List.head?_cons, Option.some_inj] at hx
      subst hx
      exact ⟨hrest.2.2.1, hrest.2.2.2⟩
  have hspan : (if c = '0' then (([c], tl ++ rest) : List Char × List Char)
      else spanDigits (c :: (tl ++ rest))) = (c :: tl, rest) := by
    by_cases hc0 : c = '0'
    · subst hc0
      rw [if_pos rfl]
      have htl : tl = [] := hzero tl rfl
      subst htl
      simp
    · rw [if_neg hc0]
      have := spanDigits_append (c :: tl) rest hdig hrn
      simpa using this
  simp only [List.cons_append, parseNumBody,
    if_neg (by simp [hc] : ¬ (¬ isDigitCh c = true)), hspan,
    parseFracPart_none rest hrdot, parseExpPart_none rest hrexp]
  simp [digitsVal]

theorem parseNumBody_frac (sgn : Bool) (ds fs rest : List Char) (hne : ds ≠ [])
    (hdig : ∀ c ∈ ds, isDigitCh c = true)
    (hzero : ∀ tl, ds = '0' :: tl → tl = [])
    (hfne : fs ≠ []) (hfdig : ∀ c ∈ fs, isDigitCh c = true)
    (hrest : numDelim rest) :
    parseNumBody sgn (ds ++ '.' :: (fs ++ rest)) =
      some (.num (if sgn then
          qMul (mkRat (-1) 1)
            (mkRat (digitsVal ds * 10 ^ fs.length + digitsVal fs) (10 ^ fs.length))
        else mkRat (digitsVal ds * 10 ^ fs.length + digitsVal fs) (10 ^ fs.length)), rest) := by
  obtain ⟨c, tl, rfl⟩ : ∃ c tl, ds = c :: tl := by
    cases ds with
    | nil => exact absurd rfl hne
    | cons c tl => exact ⟨c, tl, rfl⟩
  have hc : isDigitCh c = true := hdig c (by simp)
  have hrn : ∀ x, rest.head? = some x → isDigitCh x = false := by
    intro x hx
    cases rest with
    | nil => simp at hx
    | cons y r' =>
      simp only [List.head?_cons, Option.some_inj] at hx
      subst hx
      simpa using hrest.1
  have hrexp : ∀ x, rest.head? = some x → x ≠ 'e' ∧ x ≠ 'E' := by
    intro x hx
    cases rest with
    | nil => simp at hx
    | cons y r' =>
      simp only [List.head?_cons, Option.some_inj] at hx
      subst hx
      exact ⟨hrest.2.2.1, hrest.2.2.2⟩
  have hdotn : ∀ x, ('.' :: (fs ++ rest)).head? = some x → isDigitCh x = false := by
    intro x hx
    simp only [List.head?_cons, Option.some_inj] at hx
    subst hx
    decide
  have hspan : (if c = '0' then (([c], tl ++ '.' :: (fs ++ rest)) : List Char × List Char)
      else spanDigits (c :: (tl ++ '.' :: (fs ++ rest)))) =
      (c :: tl, '.' :: (fs ++ rest)) := by
    by_cases hc0 : c = '0'
    · subst hc0
      rw [if_pos rfl]
      have htl : tl = [] := hzero tl rfl
      subst htl
      simp
    · rw [if_neg hc0]
      have := spanDigits_append (c :: tl) ('.' :: (fs ++ rest)) hdig hdotn
      simpa using this
  simp only [List.cons_append, List.append_assoc, parseNumBody,
    if_neg (by simp [hc] : ¬ (¬ isDigitCh c = true)), hspan,
    parseFracPart_dot fs rest hfne hfdig hrn, parseExpPart_none rest hrexp]

theorem parseNumber_negS (body : List Char) :
    parseNumber ('-' :: body) = parseNumBody true body := rfl

theorem parseNumber_posS (c : Char) (r : List Char) (h : c ≠ '-') :
    parseNumber (c :: r) = parseNumBody false (c :: r) := by
  simp [parseNumber, isNegSign_false c r h]

theorem decExpAux_sound : ∀ fuel d j k, decExpAux fuel d j = some k → 10 ^ k % d = 0 := by
  intro fuel
  induction fuel with
  | zero => intro d j k h; simp [decExpAux] at h
  | succ g IH =>
    intro d j k h
    by_cases hj : 10 ^ j % d = 0
    · simp only [decExpAux, if_pos hj, Option.some_inj] at h
      subst h
      exact hj
    · simp only [decExpAux, if_neg hj] at h
      exact IH d (j + 1) k h

theorem decExp_sound (d k : Nat) (h : decExp d = some k) : 10 ^ k % d = 0 :=
  decExpAux_sound (d + 1) d 0 k h

theorem intCast_num_of_den_one (q : ℚ) (h : q.den = 1) : ((q.num : ℚ)) = q := by
  conv_rhs => rw [← Rat.num_div_den q]
  rw [h]
  simp

theorem parseNumber_dumpNum (q : ℚ) (hq : (decExp q.den).isSome) (rest : List Char)
    (hrest : numDelim rest) : parseNumber (dumpNum q ++ rest) = some (.num q, rest) := by
  have hden0 : q.den ≠ 0 := q.den_nz
  cases hk : decExp q.den with
  | none => rw [hk] at hq; simp at hq
  | some k =>
    cases k with
    | zero =>
      have hden : q.den = 1 := by
        have h1 := decExp_sound q.den 0 hk
        simp only [pow_zero] at h1
        exact Nat.dvd_one.mp (Nat.dvd_of_mod_eq_zero h1)
      have hnum : ((q.num : ℚ)) = q := intCast_num_of_den_one q hden
      obtain ⟨ds, hds, hne, hdig, hval, hhead⟩ := natToChars_spec q.num.natAbs
      have hzero : ∀ tl, ds = '0' :: tl → tl = [] := by
        intro tl htl
        by_cases h0 : q.num.natAbs = 0
        · rw [← hds, natToChars, h0] at htl
          have h01 : ('0' : Char) :: ([] : List Char) = '0' :: tl := htl
          injection h01 with _ h2
          exact h2.symm
        · exact absurd (by rw [htl]; rfl) (fun hc => hhead (by omega) '0' hc rfl)
      by_cases hneg : q.num < 0
      · have hdump : dumpNum q = '-' :: natToChars q.num.natAbs := by
          simp only [dumpNum, hk, intToChars, if_pos hneg]
        rw [hdump, List.cons_append, parseNumber_negS, hds,
          parseNumBody_int true ds rest hne hdig hzero hrest]
        have hvq : qMul (mkRat (-1) 1) (mkRat ((digitsVal ds : Int)) 1) = q := by
          rw [qMul_eq, hval, Rat.mkRat_eq_div, Rat.mkRat_eq_div]
          push_cast [Int.cast_natAbs]
          rw [abs_of_neg (show ((q.num : ℚ)) < 0 by exact_mod_cast hneg)]
          conv_rhs => rw [← hnum]
          ring
        rw [if_pos (rfl : true = true), hvq]
      · have hdump : dumpNum q = natToChars q.num.natAbs := by
          simp only [dumpNum, hk, intToChars, if_neg hneg]
        obtain ⟨c, tl, hctl⟩ : ∃ c tl, ds = c :: tl := by
          cases hds' : ds with
          | nil => exact absurd hds' hne
          | cons c tl => exact ⟨c, tl, rfl⟩
        have hcd : isDigitCh c = true := hdig c (by rw [hctl]; simp)
        rw [hdump, hds, hctl, List.cons_append,
          parseNumber_posS c _ (digit_ne_chars c hcd).1, ← List.cons_append, ← hctl,
          parseNumBody_int false ds rest hne hdig hzero hrest]
        have hvq : mkRat ((digitsVal ds : Int)) 1 = q := by
          rw [hval, Rat.mkRat_eq_div]
          push_cast [Int.cast_natAbs]
          rw [abs_of_nonneg (show (0 : ℚ) ≤ ((q.num : ℚ)) by
            exact_mod_cast (by omega : (0 : Int) ≤ q.num))]
          conv_rhs => rw [← hnum]
          ring
        simp only [if_neg (by simp : ¬ (false = true)), hvq]
    | succ kk =>
      have hdvd : q.den ∣ 10 ^ (kk + 1) :=
        Nat.dvd_of_mod_eq_zero (decExp_sound q.den (kk + 1) hk)
      have ht : q.den * (10 ^ (kk + 1) / q.den) = 10 ^ (kk + 1) :=
        Nat.mul_div_cancel' hdvd
      have htpos : 0 < 10 ^ (kk + 1) / q.den := by
        rcases Nat.eq_zero_or_pos (10 ^ (kk + 1) / q.den) with h0 | h
        · rw [h0, Nat.mul_zero] at ht
          exact absurd ht.symm (by positivity)
        · exact h
      obtain ⟨m, hM⟩ : ∃ m, m = (q.num * ((10 ^ (kk + 1) / q.den : Nat) : Int)).natAbs :=
        ⟨_, rfl⟩
      have hmabs : m = q.num.natAbs * (10 ^ (kk + 1) / q.den) := by
        rw [hM, Int.natAbs_mul, Int.natAbs_ofNat]
      obtain ⟨ds, hds, hne, hdig, hval, hhead⟩ := natToChars_spec (m / 10 ^ (kk + 1))
      obtain ⟨hflen, hfdig, hffold⟩ := natPadChars_spec (kk + 1) (m % 10 ^ (kk + 1))
      have hfne : natPadChars (kk + 1) (m % 10 ^ (kk + 1)) ≠ [] := by
        intro hcon
        have h2 := hflen
        rw [hcon] at h2
        simp at h2
      have hfval : digitsVal (natPadChars (kk + 1) (m % 10 ^ (kk + 1))) = m % 10 ^ (kk + 1) := by
        have h2 := hffold 0
        simp only [Nat.zero_mul, Nat.zero_add] at h2
        rw [digitsVal, h2]
        exact Nat.mod_mod_of_dvd _ dvd_rfl
      have hzero : ∀ tl, ds = '0' :: tl → tl = [] := by
        intro tl htl
        by_cases h0 : m / 10 ^ (kk + 1) = 0
        · rw [← hds, natToChars, h0] at htl
          have h01 : ('0' : Char) :: ([] : List Char) = '0' :: tl := htl
          injection h01 with _ h2
          exact h2.symm
        · exact absurd (by rw [htl]; rfl) (fun hc => hhead (by omega) '0' hc rfl)
      have hnumer : digitsVal ds * 10 ^ (kk + 1) + m % 10 ^ (kk + 1) = m := by
        rw [hval, Nat.mul_comm]
        exact Nat.div_add_mod m (10 ^ (kk + 1))
      have hnumerZ : (digitsVal ds : Int) * 10 ^ (kk + 1) + ((m % 10 ^ (kk + 1) : Nat) : Int) =
          (m : Int) := by exact_mod_cast hnumer
      have hMqNat : m * q.den = q.num.natAbs * 10 ^ (kk + 1) := by
        have h3 : q.num.natAbs * (10 ^ (kk + 1) / q.den) * q.den =
            q.num.natAbs * (q.den * (10 ^ (kk + 1) / q.den)) := by ring
        rw [ht] at h3
        rw [hmabs]
        exact h3
      have hMq : mkRat ((m : Int)) (10 ^ (kk + 1)) = mkRat q.num.natAbs q.den := by
        rw [Rat.mkRat_eq_div, Rat.mkRat_eq_div,
          div_eq_div_iff (by positivity) (show ((q.den : ℚ)) ≠ 0 from Nat.cast_ne_zero.mpr hden0)]
        exact_mod_cast hMqNat
      by_cases hneg : q.num < 0
      · have hdump : dumpNum q = ['-'] ++ (natToChars (m / 10 ^ (kk + 1)) ++
            '.' :: natPadChars (kk + 1) (m % 10 ^ (kk + 1))) := by
          simp only [dumpNum, hk, if_pos hneg, ← hM, List.append_assoc]
        rw [hdump]
        simp only [List.append_assoc, List.cons_append, List.singleton_append, List.nil_append]
        rw [parseNumber_negS, hds]
        rw [parseNumBody_frac true ds (natPadChars (kk + 1) (m % 10 ^ (kk + 1))) rest
            hne hdig hzero hfne hfdig hrest]
        have hvq : qMul (mkRat (-1) 1)
            (mkRat ((digitsVal ds : Int) * 10 ^ (natPadChars (kk + 1) (m % 10 ^ (kk + 1))).length +
                ((digitsVal (natPadChars (kk + 1) (m % 10 ^ (kk + 1))) : Nat) : Int))
              (10 ^ (natPadChars (kk + 1) (m % 10 ^ (kk + 1))).length)) = q := by
          rw [hflen, hfval, hnumerZ, hMq, qMul_eq, Rat.mkRat_eq_div, Rat.mkRat_eq_div]
          have hnn : ((q.num.natAbs : Int) : ℚ) = -((q.num : ℚ)) := by
            push_cast [Int.cast_natAbs]
            exact abs_of_neg (by exact_mod_cast hneg)
          rw [hnn]
          conv_rhs => rw [← Rat.num_div_den q]
          push_cast
          ring
        rw [if_pos (rfl : true = true), hvq]
      · have hdump : dumpNum q = ([] : List Char) ++ (natToChars (m / 10 ^ (kk + 1)) ++
            '.' :: natPadChars (kk + 1) (m % 10 ^ (kk + 1))) := by
          simp only [dumpNum, hk, if_neg hneg, ← hM, List.append_assoc]
        rw [hdump]
        simp only [List.nil_append, List.append_assoc, List.cons_append]
        obtain ⟨c, tl, hctl⟩ : ∃ c tl, ds = c :: tl := by
          cases hds' : ds with
          | nil => exact absurd hds' hne
          | cons c tl => exact ⟨c, tl, rfl⟩
        have hcd : isDigitCh c = true := hdig c (by rw [hctl]; simp)
        rw [hds, hctl, List.cons_append,
          parseNumber_posS c _ (digit_ne_chars c hcd).1, ← List.cons_append, ← hctl,
          parseNumBody_frac false ds (natPadChars (kk + 1) (m % 10 ^ (kk + 1))) rest
            hne hdig hzero hfne hfdig hrest]
        have hvq : mkRat ((digitsVal ds : Int) * 10 ^ (natPadChars (kk + 1) (m % 10 ^ (kk + 1))).length +
              ((digitsVal (natPadChars (kk + 1) (m % 10 ^ (kk + 1))) : Nat) : Int))
              (10 ^ (natPadChars (kk + 1) (m % 10 ^ (kk + 1))).length) = q := by
          rw [hflen, hfval, hnumerZ, hMq, Rat.mkRat_eq_div]
          have hnn : ((q.num.natAbs : Int) : ℚ) = ((q.num : ℚ)) := by
            push_cast [Int.cast_natAbs]
            exact abs_of_nonneg (by exact_mod_cast (by omega : (0 : Int) ≤ q.num))
          rw [hnn]
          conv_rhs => rw [← Rat.num_div_den q]
        simp only [if_neg (by simp : ¬ (false = true)), hvq]

/-! ### JSON string escaping -/

theorem hexVal_hexDigit : ∀ d, d < 16 → hexVal (hexDigitCh d) = some d := by decide

theorem hex4Val_hex4 (n : Nat) (h : n < 65536) :
    hex4Val (hexDigitCh (n / 4096 % 16)) (hexDigitCh (n / 256 % 16))
      (hexDigitCh (n / 16 % 16)) (hexDigitCh (n % 16)) = some n := by
  rw [hex4Val, hexVal_hexDigit _ (by omega), hexVal_hexDigit _ (by omega),
    hexVal_hexDigit _ (by omega), hexVal_hexDigit _ (by omega)]
  show some _ = some n
  congr 1
  omega

theorem parseStringChars_esc (f : Nat) (e ec : Char) (X : List Char) (cs rest : List Char)
    (hu : ¬ e = 'u') (huc : unescapeChar e = some ec)
    (hIH : parseStringChars f X = some (cs, rest)) :
    parseStringChars (f + 1) ('\\' :: e :: X) = some (ec :: cs, rest) := by
  simp only [parseStringChars, if_true, if_false, hu, huc, hIH,
    (show ¬ ('\\' : Char) = '"' by decide)]

theorem parseStringChars_astral (f : Nat) (n m2 : Nat) (X cs rest : List Char)
    (hn : 55296 ≤ n ∧ n < 56320) (hm : 56320 ≤ m2 ∧ m2 < 57344)
    (hn16 : n < 65536) (hm16 : m2 < 65536)
    (hIH : parseStringChars f X = some (cs, rest)) :
    parseStringChars (f + 1)
      ('\\' :: 'u' :: hex4 n ++ ('\\' :: 'u' :: hex4 m2 ++ X)) =
      some (Char.ofNat (65536 + (n - 55296) * 1024 + (m2 - 56320)) :: cs, rest) := by
  simp only [hex4, List.cons_append, List.nil_append, List.append_assoc, parseStringChars,
    if_true, if_false, and_self, (show ¬ ('\\' : Char) = '"' by decide),
    hex4Val_hex4 n hn16, hn.1, hn.2, hex4Val_hex4 m2 hm16, hm.1, hm.2, hIH,
    (show ¬ (56320 ≤ n ∧ n < 57344) by omega)]

theorem parseStringChars_escape : ∀ (s : List Char) (fuel : Nat) (rest : List Char),
    s.length < fuel →
    parseStringChars fuel (escapeList s ++ '"' :: rest) = some (s, rest) := by
  intro s
  induction s with
  | nil =>
    intro fuel rest h
    obtain ⟨f, rfl⟩ : ∃ f, fuel = f + 1 := ⟨fuel - 1, by omega⟩
    simp only [escapeList, List.nil_append, parseStringChars, if_pos rfl, if_true]
  | cons c cs IH =>
    intro fuel rest h
    obtain ⟨f, rfl⟩ : ∃ f, fuel = f + 1 := ⟨fuel - 1, by omega⟩
    have hf : cs.length < f := by
      simp only [List.length_cons] at h
      omega
    have hIH := IH f rest hf
    have hlt := char_toNat_lt c
    have hsur := char_not_surrogate c
    by_cases h1 : c = '"'
    · subst h1
      simp only [escapeList, List.cons_append, List.nil_append]
      rw [show escapeChar '"' = ['\\', '"'] from by decide]
      exact parseStringChars_esc f '"' '"' _ cs rest (by decide) (by decide) hIH
    · by_cases h2 : c = '\\'
      · subst h2
        simp only [escapeList, List.cons_append, List.nil_append]
        rw [show escapeChar '\\' = ['\\', '\\'] from by decide]
        exact parseStringChars_esc f '\\' '\\' _ cs rest (by decide) (by decide) hIH
      · by_cases h3 : c = '\n'
        · subst h3
          simp only [escapeList, List.cons_append, List.nil_append]
          rw [show escapeChar '\n' = ['\\', 'n'] from by decide]
          exact parseStringChars_esc f 'n' '\n' _ cs rest (by decide) (by decide) hIH
        · by_cases h4 : c = '\r'
          · subst h4
            simp only [escapeList, List.cons_append, List.nil_append]
            rw [show escapeChar '\r' = ['\\', 'r'] from by decide]
            exact parseStringChars_esc f 'r' '\r' _ cs rest (by decide) (by decide) hIH
          · by_cases h5 : c = '\t'
            · subst h5
              simp only [escapeList, List.cons_append, List.nil_append]
              rw [show escapeChar '\t' = ['\\', 't'] from by decide]
              exact parseStringChars_esc f 't' '\t' _ cs rest (by decide) (by decide) hIH
            · by_cases h6 : c.toNat = 8
              · have hc : c = Char.ofNat 8 := by rw [← h6, Char.ofNat_toNat]
                subst hc
                simp only [escapeList, List.cons_append, List.nil_append]
                rw [show escapeChar (Char.ofNat 8) = ['\\', 'b'] from by decide]
                exact parseStringChars_esc f 'b' (Char.ofNat 8) _ cs rest
                  (by decide) (by decide) hIH
              · by_cases h7 : c.toNat = 12
                · have hc : c = Char.ofNat 12 := by rw [← h7, Char.ofNat_toNat]
                  subst hc
                  simp only [escapeList, List.cons_append, List.nil_append]
                  rw [show escapeChar (Char.ofNat 12) = ['\\', 'f'] from by decide]
                  exact parseStringChars_esc f 'f' (Char.ofNat 12) _ cs rest
                    (by decide) (by decide) hIH
                · by_cases h8 : 32 ≤ c.toNat ∧ c.toNat ≤ 126
                  · simp only [escapeList, List.cons_append, List.nil_append]
                    rw [show escapeChar c = [c] from by
                      simp only [escapeChar, if_neg h1, if_neg h2, if_neg h3, if_neg h4,
                        if_neg h5, if_neg h6, if_neg h7, if_pos h8]]
                    simp only [List.cons_append, List.nil_append, parseStringChars]
                    rw [if_neg h1, if_neg h2, if_neg (show ¬ c.toNat < 32 by omega)]
                    simp only [hIH]
                  · by_cases h9 : c.toNat < 65536
                    · simp only [escapeList, List.cons_append, List.nil_append]
                      rw [show escapeChar c = '\\' :: 'u' :: hex4 c.toNat from by
                        simp only [escapeChar, if_neg h1, if_neg h2, if_neg h3, if_neg h4,
                          if_neg h5, if_neg h6, if_neg h7, if_neg h8, if_pos h9]]
                      simp only [hex4, List.cons_append, List.nil_append, parseStringChars,
                        if_true, if_false, (show ¬ ('\\' : Char) = '"' by decide),
                        hex4Val_hex4 c.toNat h9,
                        (show ¬ (55296 ≤ c.toNat ∧ c.toNat < 56320) by omega),
                        (show ¬ (56320 ≤ c.toNat ∧ c.toNat < 57344) by omega),
                        hIH, Char.ofNat_toNat]
                    · simp only [escapeList, List.cons_append, List.nil_append]
                      rw [show escapeChar c = '\\' :: 'u' :: hex4 (55296 + (c.toNat - 65536) / 1024) ++
                          ('\\' :: 'u' :: hex4 (56320 + (c.toNat - 65536) % 1024)) from by
                        simp only [escapeChar, if_neg h1, if_neg h2, if_neg h3, if_neg h4,
                          if_neg h5, if_neg h6, if_neg h7, if_neg h8, if_neg h9]]
                      simp only [List.append_assoc]
                      rw [parseStringChars_astral f (55296 + (c.toNat - 65536) / 1024)
                        (56320 + (c.toNat - 65536) % 1024) _ cs rest (by omega) (by omega)
                        (by omega) (by omega) hIH]
                      rw [show 65536 + (55296 + (c.toNat - 65536) / 1024 - 55296) * 1024 +
                          (56320 + (c.toNat - 65536) % 1024 - 56320) = c.toNat from by omega,
                        Char.ofNat_toNat]

/-! ### dumps output shape, dict reconstruction -/

theorem string_mk_data (s : String) : String.mk s.data = s := rfl

theorem escapeChar_len (c : Char) : 1 ≤ (escapeChar c).length := by
  simp only [escapeChar, hex4]
  split_ifs <;> simp

theorem escapeList_length_ge (s : List Char) : s.length ≤ (escapeList s).length := by
  induction s with
  | nil => simp [escapeList]
  | cons c cs IH =>
    have := escapeChar_len c
    simp only [escapeList, List.length_append, List.length_cons]
    omega

theorem intToChars_head (i : Int) : ∃ c tl, intToChars i = c :: tl ∧
    (c = '-' ∨ isDigitCh c = true) := by
  obtain ⟨ds, hds, hne, hdig, _, _⟩ := natToChars_spec i.natAbs
  by_cases hneg : i < 0
  · exact ⟨'-', natToChars i.natAbs, by simp [intToChars, if_pos hneg], Or.inl rfl⟩
  · obtain ⟨c, tl, hctl⟩ : ∃ c tl, ds = c :: tl := by
      cases hds' : ds with
      | nil => exact absurd hds' hne
      | cons c tl => exact ⟨c, tl, rfl⟩
    refine ⟨c, tl, ?_, Or.inr (hdig c (by rw [hctl]; simp))⟩
    rw [intToChars, if_neg hneg, hds, hctl]

theorem dumpNum_head (q : ℚ) : ∃ c tl, dumpNum q = c :: tl ∧
    (c = '-' ∨ isDigitCh c = true) := by
  rw [dumpNum]
  cases hk : decExp q.den with
  | none => exact intToChars_head _
  | some k =>
    cases k with
    | zero => exact intToChars_head _
    | succ kk =>
      dsimp only
      obtain ⟨ds, hds, hne, hdig, _, _⟩ :=
        natToChars_spec ((q.num * ((10 ^ (kk + 1) : Nat) / q.den : Nat)).natAbs / 10 ^ (kk + 1))
      by_cases hneg : q.num < 0
      · refine ⟨'-', ?tl, ?he, Or.inl rfl⟩
        case he =>
          rw [if_pos hneg]
          exact rfl
      · rw [if_neg hneg]
        obtain ⟨c, tl, hctl⟩ : ∃ c tl, ds = c :: tl := by
          cases hds' : ds with
          | nil => exact absurd hds' hne
          | cons c tl => exact ⟨c, tl, rfl⟩
        refine ⟨c, ?tl2, ?he2, Or.inr (hdig c (by rw [hctl]; simp))⟩
        case he2 =>
          rw [hds, hctl]
          exact rfl

theorem dumps_head_spec (d : Json) : ∃ c tl, dumps d = c :: tl ∧
    (c = 'n' ∨ c = 't' ∨ c = 'f' ∨ c = '"' ∨ c = '[' ∨ c = '\x7b' ∨ c = '-' ∨
      isDigitCh c = true) := by
  cases d with
  | null => exact ⟨'n', _, rfl, by simp⟩
  | bool b =>
    cases b with
    | true => exact ⟨'t', _, rfl, by simp⟩
    | false => exact ⟨'f', _, rfl, by simp⟩
  | num q =>
    obtain ⟨c, tl, hc, hd⟩ := dumpNum_head q
    exact ⟨c, tl, by simp [dumps, hc], by tauto⟩
  | str s => exact ⟨'"', _, rfl, by simp⟩
  | arr xs =>
    cases xs with
    | nil => exact ⟨'[', _, rfl, by simp⟩
    | cons x xs => exact ⟨'[', _, rfl, by simp⟩
  | obj kvs =>
    cases kvs with
    | nil => exact ⟨'\x7b', _, rfl, by simp⟩
    | cons kv kvs => exact ⟨'\x7b', _, rfl, by simp⟩

theorem head_class_facts (c : Char)
    (h : c = 'n' ∨ c = 't' ∨ c = 'f' ∨ c = '"' ∨ c = '[' ∨ c = '\x7b' ∨ c = '-' ∨
      isDigitCh c = true) :
    isWsChar c = false ∧ c ≠ ']' ∧ c ≠ ',' ∧ c ≠ '\x7d' := by
  rcases h with rfl | rfl | rfl | rfl | rfl | rfl | rfl | hd
  · exact ⟨by decide, by decide, by decide, by decide⟩
  · exact ⟨by decide, by decide, by decide, by decide⟩
  · exact ⟨by decide, by decide, by decide, by decide⟩
  · exact ⟨by decide, by decide, by decide, by decide⟩
  · exact ⟨by decide, by decide, by decide, by decide⟩
  · exact ⟨by decide, by decide, by decide, by decide⟩
  · exact ⟨by decide, by decide, by decide, by decide⟩
  · simp only [isDigitCh, Bool.and_eq_true, decide_eq_true_eq] at hd
    refine ⟨?_, ?_, ?_, ?_⟩
    · simp only [isWsChar]
      have h1 : ¬ c = ' ' := fun hc => by subst hc; revert hd; decide
      have h2 : ¬ c = '\t' := fun hc => by subst hc; revert hd; decide
      have h3 : ¬ c = '\n' := fun hc => by subst hc; revert hd; decide
      have h4 : ¬ c = '\r' := fun hc => by subst hc; revert hd; decide
      simp [h1, h2, h3, h4]
    · exact fun hc => by subst hc; revert hd; decide
    · exact fun hc => by subst hc; revert hd; decide
    · exact fun hc => by subst hc; revert hd; decide

theorem skipWs_dumps (d : Json) (X : List Char) : skipWs (dumps d ++ X) = dumps d ++ X := by
  obtain ⟨c, tl, hc, hclass⟩ := dumps_head_spec d
  apply skipWs_not_ws
  intro x hx
  rw [hc] at hx
  simp only [List.cons_append, List.head?_cons, Option.some_inj] at hx
  subst hx
  exact (head_class_facts _ hclass).1

theorem headIs_dumps (d : Json) (X : List Char) (b : Char) (hb : b = ']' ∨ b = '\x7d') :
    headIs (dumps d ++ X) b = false := by
  obtain ⟨c, tl, hc, hclass⟩ := dumps_head_spec d
  rw [hc]
  simp only [List.cons_append, headIs, beq_eq_false_iff_ne, ne_eq]
  obtain ⟨_, h1, _, h2⟩ := head_class_facts c hclass
  rcases hb with rfl | rfl
  · exact h1
  · exact h2

theorem numDelim_rb (r : List Char) : numDelim (']' :: r) := by
  refine ⟨by decide, by decide, by decide, by decide⟩

theorem numDelim_cm (r : List Char) : numDelim (',' :: r) := by
  refine ⟨by decide, by decide, by decide, by decide⟩

theorem numDelim_cb (r : List Char) : numDelim ('\x7d' :: r) := by
  refine ⟨by decide, by decide, by decide, by decide⟩

theorem objInsert_notmem (acc : List (String × Json)) (k : String) (v : Json)
    (h : ∀ kv ∈ acc, ¬ (kv.1 == k) = true) : objInsert acc k v = acc ++ [(k, v)] := by
  induction acc with
  | nil => rfl
  | cons kv acc IH =>
    have hk := h kv (by simp)
    simp only [objInsert, if_neg hk, List.cons_append]
    rw [IH (fun x hx => h x (by simp [hx]))]

theorem dictify_go (pairs : List (String × Json)) : ∀ acc,
    keysDistinct pairs = true → (∀ kv ∈ pairs, ∀ kv2 ∈ acc, ¬ (kv2.1 == kv.1) = true) →
    pairs.foldl (fun acc kv => objInsert acc kv.1 kv.2) acc = acc ++ pairs := by
  induction pairs with
  | nil => intro acc _ _; simp
  | cons kv pairs IH =>
    intro acc hdist hacc
    simp only [keysDistinct, Bool.and_eq_true, List.all_eq_true] at hdist
    simp only [List.foldl_cons]
    rw [objInsert_notmem acc kv.1 kv.2 (fun x hx => hacc kv (by simp) x hx)]
    rw [IH (acc ++ [(kv.1, kv.2)]) hdist.2]
    · simp
    · intro x hx kv2 hkv2
      simp only [List.mem_append, List.mem_singleton] at hkv2
      rcases hkv2 with hkv2 | rfl
      · exact hacc x (by simp [hx]) kv2 hkv2
      · have h2 := hdist.1 x hx
        simp only [beq_iff_eq, Bool.not_eq_true, decide_eq_false_iff_not,
          decide_eq_true_eq] at h2 ⊢
        exact fun he => h2 he.symm

theorem dictify_distinct (pairs : List (String × Json)) (h : keysDistinct pairs = true) :
    dictify pairs = pairs := by
  have := dictify_go pairs [] h (by simp)
  simpa [dictify] using this

/-! ### Parsing inverts printing -/

theorem dumpEntry_cons (kv : String × Json) (X : List Char) :
    dumpEntry kv ++ X = '"' :: (escapeList kv.1.data ++ ('"' :: ':' :: ' ' :: (dumps kv.2 ++ X))) := by
  simp [dumpEntry, dumpString]

theorem skipWs_entry (kv : String × Json) (X : List Char) :
    skipWs (dumpEntry kv ++ X) = dumpEntry kv ++ X := by
  rw [dumpEntry_cons]
  rw [skipWs_not_ws _ (by intro c hc; simp only [List.head?_cons,
    Option.some_inj] at hc; subst hc; decide)]

theorem headIs_entry (kv : String × Json) (X : List Char) (b : Char)
    (hb : b = ']' ∨ b = '\x7d') : headIs (dumpEntry kv ++ X) b = false := by
  rw [dumpEntry_cons]
  rcases hb with rfl | rfl
  · rfl
  · rfl

theorem dumpEntry_length (kv : String × Json) :
    (dumpEntry kv).length = (escapeList kv.1.data).length + 4 + (dumps kv.2).length := by
  simp only [dumpEntry, dumpString, List.length_append, List.length_cons,
    List.length_singleton, List.length_nil, List.cons_append]
  omega

theorem numDelim_arrRest (xs : List Json) (rest : List Char) :
    numDelim (dumpsArrRest xs ++ ']' :: rest) := by
  cases xs with
  | nil => exact numDelim_rb rest
  | cons x xs => exact numDelim_cm _

theorem numDelim_objRest (kvs : List (String × Json)) (rest : List Char) :
    numDelim (dumpsObjRest kvs ++ '\x7d' :: rest) := by
  cases kvs with
  | nil => exact numDelim_cb rest
  | cons kv kvs => exact numDelim_cm _

theorem sizeOf_snd_lt (kv : String × Json) : sizeOf kv.2 < sizeOf kv := by
  obtain ⟨a, b⟩ := kv
  simp
  try omega

theorem sizeOf_arr_head (x : Json) (xs : List Json) :
    sizeOf x < sizeOf (Json.arr (x :: xs)) := by
  simp
  try omega

theorem sizeOf_arr_tail (x : Json) (xs : List Json) :
    sizeOf xs < sizeOf (Json.arr (x :: xs)) := by
  simp
  try omega

theorem sizeOf_obj_head (kv : String × Json) (kvs : List (String × Json)) :
    sizeOf kv < sizeOf (Json.obj (kv :: kvs)) := by
  simp
  try omega

theorem sizeOf_obj_tail (kv : String × Json) (kvs : List (String × Json)) :
    sizeOf kvs < sizeOf (Json.obj (kv :: kvs)) := by
  simp
  try omega

theorem sizeOf_list_head {α : Type} [SizeOf α] (x : α) (xs : List α) :
    sizeOf x < sizeOf (x :: xs) := by
  simp
  try omega

theorem sizeOf_list_tail {α : Type} [SizeOf α] (x : α) (xs : List α) :
    sizeOf xs < sizeOf (x :: xs) := by
  simp
  try omega

mutual

theorem parseValue_dumps (d : Json) : ∀ (fuel : Nat) (rest : List Char),
    wellFormedDoc d = true → numDelim rest → (dumps d).length + rest.length < fuel →
    parseValue fuel (dumps d ++ rest) = some (d, rest) := by
  intro fuel rest hwf hnd hfuel
  obtain ⟨F, rfl⟩ : ∃ F, fuel = F + 1 := ⟨fuel - 1, by omega⟩
  cases d with
  | null => exact rfl
  | bool b => cases b <;> exact rfl
  | num q =>
    obtain ⟨c, tl, hctl, hcls⟩ := dumpNum_head q
    have hq : (decExp q.den).isSome := by
      simpa [wellFormedDoc] using hwf
    have hnum : parseNumber (dumpNum q ++ rest) = some (.num q, rest) :=
      parseNumber_dumpNum q hq rest hnd
    have hne : c ≠ '"' ∧ c ≠ '[' ∧ c ≠ '\x7b' ∧ c ≠ 't' ∧ c ≠ 'f' ∧ c ≠ 'n' := by
      rcases hcls with rfl | hd
      · exact ⟨by decide, by decide, by decide, by decide, by decide, by decide⟩
      · obtain ⟨_, _, _, _, h5, h6, h7, h8, h9, h10⟩ := digit_ne_chars c hd
        exact ⟨h5, h6, h7, h8, h9, h10⟩
    rw [show dumps (Json.num q) = dumpNum q from rfl, hctl, List.cons_append]
    simp only [parseValue]
    rw [if_neg hne.1, if_neg hne.2.1, if_neg hne.2.2.1, if_neg hne.2.2.2.1,
      if_neg hne.2.2.2.2.1, if_neg hne.2.2.2.2.2]
    rw [← List.cons_append, ← hctl, hnum]
  | str s =>
    have hesc := parseStringChars_escape s.data
      ((escapeList s.data ++ '"' :: rest).length + 1) rest
      (by
        have := escapeList_length_ge s.data
        simp only [List.length_append, List.length_cons]
        omega)
    rw [show dumps (Json.str s) = '"' :: (escapeList s.data ++ ['"']) from rfl]
    simp only [List.cons_append, List.append_assoc, List.singleton_append,
      List.nil_append]
    simp only [parseValue, if_true, hesc, string_mk_data]
  | arr xs =>
    cases xs with
    | nil => exact rfl
    | cons x xs =>
      have hwx : wellFormedDoc x = true ∧ wellFormedList xs = true := by
        simpa [wellFormedDoc, wellFormedList] using hwf
      rw [show dumps (Json.arr (x :: xs)) =
        '[' :: (dumps x ++ dumpsArrRest xs ++ [']']) from rfl] at hfuel ⊢
      simp only [List.length_cons, List.length_append, List.length_singleton] at hfuel
      simp only [List.cons_append, List.append_assoc, List.singleton_append,
        List.nil_append]
      simp only [parseValue, if_true, if_false, Bool.false_eq_true,
        (show ¬ ('[' : Char) = '"' by decide)]
      rw [skipWs_dumps x (dumpsArrRest xs ++ ']' :: rest),
        headIs_dumps x _ ']' (Or.inl rfl)]
      rw [if_neg (by decide : ¬ false = true)]
      simp only [parseValue_dumps x F (dumpsArrRest xs ++ ']' :: rest) hwx.1
        (numDelim_arrRest xs rest)
        (by simp only [List.length_append, List.length_cons]; omega),
        parseArrMore_dumps xs F rest hwx.2 (by omega)]
  | obj kvs =>
    cases kvs with
    | nil => exact rfl
    | cons kv kvs =>
      have hwx : keysDistinct (kv :: kvs) = true ∧ wellFormedDoc kv.2 = true ∧
          wellFormedObj kvs = true := by
        have h1 : (keysDistinct (kv :: kvs) && wellFormedObj (kv :: kvs)) = true := by
          simpa [wellFormedDoc] using hwf
        simp only [Bool.and_eq_true, wellFormedObj] at h1
        exact ⟨h1.1, h1.2.1, h1.2.2⟩
      have hdl := dumpEntry_length kv
      rw [show dumps (Json.obj (kv :: kvs)) =
        '\x7b' :: (dumpEntry kv ++ dumpsObjRest kvs ++ ['\x7d']) from rfl] at hfuel ⊢
      simp only [List.length_cons, List.length_append, List.length_singleton] at hfuel
      simp only [List.cons_append, List.append_assoc, List.singleton_append,
        List.nil_append]
      simp only [parseValue, if_true, if_false, Bool.false_eq_true,
        (show ¬ ('\x7b' : Char) = '"' by decide),
        (show ¬ ('\x7b' : Char) = '[' by decide)]
      rw [skipWs_entry kv _, headIs_entry kv _ '\x7d' (Or.inr rfl)]
      rw [if_neg (by decide : ¬ false = true)]
      simp only [parseObjEntry_dumps kv F (dumpsObjRest kvs ++ '\x7d' :: rest) hwx.2.1
        (numDelim_objRest kvs rest)
        (by simp only [List.length_append, List.length_cons]; omega),
        parseObjMore_dumps kvs F rest hwx.2.2 (by omega),
        dictify_distinct (kv :: kvs) hwx.1]
termination_by sizeOf d
decreasing_by all_goals (subst_vars; first
  | exact sizeOf_snd_lt _
  | exact sizeOf_arr_head _ _
  | exact sizeOf_arr_tail _ _
  | exact sizeOf_obj_head _ _
  | exact sizeOf_obj_tail _ _
  | exact sizeOf_list_head _ _
  | exact sizeOf_list_tail _ _
  | decreasing_tactic)

theorem parseArrMore_dumps (xs : List Json) : ∀ (fuel : Nat) (rest : List Char),
    wellFormedList xs = true → (dumpsArrRest xs).length + 1 + rest.length < fuel →
    parseArrMore fuel (dumpsArrRest xs ++ ']' :: rest) = some (xs, rest) := by
  intro fuel rest hwf hfuel
  obtain ⟨F, rfl⟩ : ∃ F, fuel = F + 1 := ⟨fuel - 1, by omega⟩
  cases xs with
  | nil => exact rfl
  | cons x xs =>
    have hwx : wellFormedDoc x = true ∧ wellFormedList xs = true := by
      simpa [wellFormedList] using hwf
    rw [show dumpsArrRest (x :: xs) = ',' :: ' ' :: (dumps x ++ dumpsArrRest xs)
      from rfl] at hfuel ⊢
    simp only [List.length_cons, List.length_append] at hfuel
    simp only [List.cons_append, List.append_assoc]
    simp only [parseArrMore]
    rw [skipWs_not_ws _ (by intro c hc; simp only [List.head?_cons,
      Option.some_inj] at hc; subst hc; decide)]
    simp only [(show headIs (',' :: ' ' :: (dumps x ++ (dumpsArrRest xs ++ ']' :: rest)))
        ']' = false from rfl),
      (show headIs (',' :: ' ' :: (dumps x ++ (dumpsArrRest xs ++ ']' :: rest)))
        ',' = true from rfl),
      Bool.false_eq_true, if_false, if_true, List.tail_cons]
    rw [skipWs_space, skipWs_dumps x _]
    simp only [parseValue_dumps x F (dumpsArrRest xs ++ ']' :: rest) hwx.1
      (numDelim_arrRest xs rest)
      (by simp only [List.length_append, List.length_cons]; omega),
      parseArrMore_dumps xs F rest hwx.2 (by omega)]
termination_by sizeOf xs
decreasing_by all_goals (subst_vars; first
  | exact sizeOf_snd_lt _
  | exact sizeOf_arr_head _ _
  | exact sizeOf_arr_tail _ _
  | exact sizeOf_obj_head _ _
  | exact sizeOf_obj_tail _ _
  | exact sizeOf_list_head _ _
  | exact sizeOf_list_tail _ _
  | decreasing_tactic)

theorem parseObjEntry_dumps (kv : String × Json) : ∀ (fuel : Nat) (rest : List Char),
    wellFormedDoc kv.2 = true → numDelim rest →
    (dumpEntry kv).length + rest.length < fuel →
    parseObjEntry fuel (dumpEntry kv ++ rest) = some (kv, rest) := by
  intro fuel rest hwf hnd hfuel
  obtain ⟨F, rfl⟩ : ∃ F, fuel = F + 1 := ⟨fuel - 1, by omega⟩
  have hdl := dumpEntry_length kv
  have hesc := parseStringChars_escape kv.1.data
    ((escapeList kv.1.data ++ ('"' :: ':' :: ' ' :: (dumps kv.2 ++ rest))).length + 1)
    (':' :: ' ' :: (dumps kv.2 ++ rest))
    (by
      have := escapeList_length_ge kv.1.data
      simp only [List.length_append, List.length_cons]
      omega)
  rw [dumpEntry_cons]
  simp only [parseObjEntry]
  simp only [(show ∀ Y, headIs ('"' :: Y) '"' = true from fun Y => rfl), if_true,
    List.tail_cons]
  rw [hesc]
  dsimp only
  rw [skipWs_not_ws _ (by intro c hc; simp only [List.head?_cons,
    Option.some_inj] at hc; subst hc; decide)]
  simp only [(show ∀ Y, headIs (':' :: Y) ':' = true from fun Y => rfl), if_true,
    List.tail_cons]
  rw [skipWs_space, skipWs_dumps kv.2 rest]
  simp only [parseValue_dumps kv.2 F rest hwf hnd (by omega), string_mk_data,
    Prod.mk.eta]
termination_by sizeOf kv
decreasing_by all_goals (subst_vars; first
  | exact sizeOf_snd_lt _
  | exact sizeOf_arr_head _ _
  | exact sizeOf_arr_tail _ _
  | exact sizeOf_obj_head _ _
  | exact sizeOf_obj_tail _ _
  | exact sizeOf_list_head _ _
  | exact sizeOf_list_tail _ _
  | decreasing_tactic)

theorem parseObjMore_dumps (kvs : List (String × Json)) : ∀ (fuel : Nat) (rest : List Char),
    wellFormedObj kvs = true → (dumpsObjRest kvs).length + 1 + rest.length < fuel →
    parseObjMore fuel (dumpsObjRest kvs ++ '\x7d' :: rest) = some (kvs, rest) := by
  intro fuel rest hwf hfuel
  obtain ⟨F, rfl⟩ : ∃ F, fuel = F + 1 := ⟨fuel - 1, by omega⟩
  cases kvs with
  | nil => exact rfl
  | cons kv kvs =>
    have hwx : wellFormedDoc kv.2 = true ∧ wellFormedObj kvs = true := by
      simpa [wellFormedObj] using hwf
    have hdl := dumpEntry_length kv
    rw [show dumpsObjRest (kv :: kvs) = ',' :: ' ' :: (dumpEntry kv ++ dumpsObjRest kvs)
      from rfl] at hfuel ⊢
    simp only [List.length_cons, List.length_append] at hfuel
    simp only [List.cons_append, List.append_assoc]
    simp only [parseObjMore]
    rw [skipWs_not_ws _ (by intro c hc; simp only [List.head?_cons,
      Option.some_inj] at hc; subst hc; decide)]
    simp only [(show headIs (',' :: ' ' :: (dumpEntry kv ++ (dumpsObjRest kvs ++
        '\x7d' :: rest))) '\x7d' = false from by
        rw [show (',' :: ' ' :: (dumpEntry kv ++ (dumpsObjRest kvs ++ '\x7d' :: rest))) =
          ',' :: (' ' :: (dumpEntry kv ++ (dumpsObjRest kvs ++ '\x7d' :: rest))) from rfl]
        rfl),
      (show headIs (',' :: ' ' :: (dumpEntry kv ++ (dumpsObjRest kvs ++ '\x7d' :: rest)))
        ',' = true from rfl),
      Bool.false_eq_true, if_false, if_true, List.tail_cons]
    rw [skipWs_space, skipWs_entry kv _]
    simp only [parseObjEntry_dumps kv F (dumpsObjRest kvs ++ '\x7d' :: rest) hwx.1
      (numDelim_objRest kvs rest)
      (by simp only [List.length_append, List.length_cons]; omega),
      parseObjMore_dumps kvs F rest hwx.2 (by omega)]
termination_by sizeOf kvs
decreasing_by all_goals (subst_vars; first
  | exact sizeOf_snd_lt _
  | exact sizeOf_arr_head _ _
  | exact sizeOf_arr_tail _ _
  | exact sizeOf_obj_head _ _
  | exact sizeOf_obj_tail _ _
  | exact sizeOf_list_head _ _
  | exact sizeOf_list_tail _ _
  | decreasing_tactic)

end

/-! ### The decode pipeline inverts the encoder -/

theorem utf8Encode_length_ge (s : List Char) : s.length ≤ (utf8Encode s).length := by
  induction s with
  | nil => simp [utf8Encode]
  | cons c cs IH =>
    have h1 : 1 ≤ (utf8EncodeChar c).length := by
      simp only [utf8EncodeChar]
      split_ifs <;> simp
    simp only [utf8Encode, List.length_append, List.length_cons]
    omega

theorem jsonLoads_dumps (d : Json) (hwf : wellFormedDoc d = true) :
    jsonLoads (dumps d) = .ok d := by
  have hskip : skipWs (dumps d) = dumps d := by
    have := skipWs_dumps d []
    simpa using this
  have hpv : parseValue ((dumps d).length + 1) (dumps d ++ []) = some (d, []) :=
    parseValue_dumps d ((dumps d).length + 1) [] hwf trivial (by simp)
  rw [List.append_nil] at hpv
  rw [jsonLoads, hskip, hpv]
  rfl

theorem any_ascii_false (chars : List Char) (h : ∀ c ∈ chars, c.toNat < 128) :
    (chars.any fun ch => 128 ≤ ch.toNat) = false := by
  rw [List.any_eq_false]
  intro c hc
  simp only [decide_eq_true_eq, not_le]
  exact h c hc

namespace BlueprintParser

theorem decode_encode (d : Json) (hwf : wellFormedDoc d = true) :
    decode (encode d) = .ok d := by
  have hbytes : ∀ b ∈ zlibCompress (utf8Encode (dumps d)), b < 256 :=
    zlibCompress_lt _ (utf8Encode_lt (dumps d))
  have hascii : ((b64encode (zlibCompress (utf8Encode (dumps d)))).any
      fun ch => 128 ≤ ch.toNat) = false :=
    any_ascii_false _ (b64encode_ascii _ hbytes)
  have ha2b := a2b_b64encode _ hbytes
  have hzlib := zlib_roundtrip (utf8Encode (dumps d))
  have hutf := utf8_roundtrip (dumps d) ((utf8Encode (dumps d)).length + 1)
    (by have := utf8Encode_length_ge (dumps d); omega)
  have hload := jsonLoads_dumps d hwf
  rw [encode, decode.eq_def]
  simp only [if_true, hascii, Bool.false_eq_true, if_false, ha2b, hzlib, hutf, hload]

end BlueprintParser

/-! ### Claims about the wire format -/

namespace BlueprintParser

/-- **C1.**  Round-trip: for every JSON document `D` in the image of the
Python data model (`wellFormedDoc`: numbers exactly representable in
decimal — true of every Python `int` and `float` — and object keys
pairwise distinct — true of every `dict`), encoding `D` via the wire
format (the character `0` followed by the base64 encoding of the
zlib/deflate compression of the UTF-8 JSON serialization of `D`) and then
applying `decode` returns exactly `D`, with no error. -/
theorem roundtrip_spec (d : Json) (hwf : wellFormedDoc d = true) :
    decode (encode d) = .ok d :=
  decode_encode d hwf

/-- Witness for `roundtrip_spec` at a concrete blueprint document. -/
theorem roundtrip_spec_witness :
    wellFormedDoc (.obj [("blueprint", .obj [("label", .str "Test"),
      ("version", .num 281474976710656)])]) = true ∧
    decode (encode (.obj [("blueprint", .obj [("label", .str "Test"),
      ("version", .num 281474976710656)])])) =
      .ok (.obj [("blueprint", .obj [("label", .str "Test"),
        ("version", .num 281474976710656)])]) :=
  ⟨by rfl, roundtrip_spec _ (by rfl)⟩

/-- **C6.**  Marker invariant: `decode(s)` fails with `FormatError` (the
bad-marker `BlueprintParseError`) for every string `s` that does not
start with `"0"`, including the empty string, and returns no document. -/
theorem decode_marker_invariant (s : List Char) (h : s.head? ≠ some '0') :
    decode s = .error .badMarker ∧ DecodeErr.badMarker.isFormatError = true := by
  refine ⟨?_, rfl⟩
  cases s with
  | nil => rfl
  | cons c r =>
    have hc : ¬ c = '0' := by
      intro hcon
      exact h (by rw [hcon]; rfl)
    rw [decode.eq_def]
    simp only [if_neg hc]

/-- Witness for `decode_marker_invariant` on `"invalid_blueprint"` and on
the empty string. -/
theorem decode_marker_invariant_witness :
    ("invalid_blueprint".data.head? ≠ some '0') ∧
      (decode "invalid_blueprint".data = .error .badMarker ∧
        DecodeErr.badMarker.isFormatError = true) ∧
    (([] : List Char).head? ≠ some '0') ∧
      (decode [] = .error .badMarker ∧ DecodeErr.badMarker.isFormatError = true) :=
  ⟨by decide, decode_marker_invariant _ (by decide),
   by decide, decode_marker_invariant [] (by decide)⟩

/-- **C8 counterexample.**  `#` lies outside the standard base64 alphabet
(and is not `=`), yet inserting it after the marker of a valid encoding
of `\x7b\x7d` does not make `decode` fail: CPython's `b64decode` (via
`binascii.a2b_base64` in non-strict mode) silently discards characters
outside the alphabet, so both strings decode to the empty object.  This
refutes "decode fails with FormatError at the text-decode stage whenever
the remainder contains a character outside the alphabet". -/
theorem b64_junk_counterexample :
    b64CharVal '#' = none ∧ '#' ≠ '=' ∧
      decode ("0#eAEBAgD9/3t9AXUA+Q==".data) = .ok (.obj []) ∧
      decode ("0eAEBAgD9/3t9AXUA+Q==".data) = .ok (.obj []) :=
  ⟨rfl, by decide, by rfl, by rfl⟩

/-- **C8 (amended).**  A character outside the base64 alphabet that is
not `=` and is ASCII is simply discarded: inserting it anywhere after the
version marker leaves the result of `decode` unchanged.  (`decode` fails
with `FormatError` only when the surviving alphabet characters leave an
incomplete final group; a non-ASCII character instead raises an uncaught
`ValueError` from `b64decode`'s ASCII check, which is not a
`FormatError`.) -/
theorem decode_ignores_junk (pre suf : List Char) (c : Char)
    (h1 : b64CharVal c = none) (h2 : c ≠ '=') (h3 : c.toNat < 128) :
    decode ('0' :: (pre ++ c :: suf)) = decode ('0' :: (pre ++ suf)) := by
  have hc : (decide (128 ≤ c.toNat)) = false := by
    simp only [decide_eq_false_iff_not, not_le]
    omega
  rw [decode.eq_def, decode.eq_def]
  simp only [if_true, List.any_append, List.any_cons, hc, Bool.false_or]
  rw [a2b_insert_junk c h1 h2 pre]

/-- Witness for `decode_ignores_junk`: inserting `#` right after the
marker of a valid encoding of `\x7b\x7d` leaves the decode result
unchanged. -/
theorem decode_ignores_junk_witness :
    b64CharVal '#' = none ∧ '#' ≠ '=' ∧ '#'.toNat < 128 ∧
      decode ('0' :: ([] ++ '#' :: "eAEBAgD9/3t9AXUA+Q==".data)) =
        decode ('0' :: ([] ++ "eAEBAgD9/3t9AXUA+Q==".data)) :=
  ⟨rfl, by decide, by decide,
   decode_ignores_junk [] "eAEBAgD9/3t9AXUA+Q==".data '#' rfl (by decide) (by decide)⟩

/-- **C10.**  A well-formed encoded input whose payload is valid JSON but
not an object: `["blueprint"]` decodes successfully (so no `FormatError`),
and `extract_metadata` applied to the result fails with an uncaught
`TypeError` — `"blueprint" in data` is true for the list, and
`data["blueprint"]` then subscripts a list with a string — which is
neither of the two declared error kinds (`FormatError` is impossible
after a successful decode, and the error is not a `SchemaError`). -/
theorem nonobject_document_gap :
    decode (encode (.arr [.str "blueprint"])) = .ok (.arr [.str "blueprint"]) ∧
    extract_metadata (.arr [.str "blueprint"]) = .error .typeError ∧
    PyExc.typeError ≠ PyExc.schemaError :=
  ⟨by rfl, by rfl, by decide⟩

end BlueprintParser
